import Mathlib

/-!
Verification development for the SpeechCorrectorBot repository.

The Python sources (src/telegram_bot.py, src/ai.py) are embedded shallowly:
texts are `List Char`, regex-based routines are implemented as explicit
character scanners with the exact semantics of the regexes they embed, the
per-chat session dictionary is an association list, and the external
collaborators (the DeepSeek oracle transport, the pymorphy3 morphological
analyzer and the rapidfuzz similarity score) are function parameters, since
their code is not part of the repository.
-/

/-- Word character for the `\w` class of the source's regexes
(`re.UNICODE`); the embedding uses the decidable class
letters / digits / underscore. -/
def isWordChar (c : Char) : Bool := c.isAlpha || c.isDigit || c = '_'

/-- Whitespace for Python's `\s` class and `str.strip()`
(space, tab, newline, carriage return, vertical tab, form feed). -/
def isPySpace (c : Char) : Bool :=
  c = ' ' || c = '\t' || c = '\n' || c = '\r' || c = Char.ofNat 11 || c = Char.ofNat 12

/-- The opening curly-brace character. -/
def lbrace : Char := Char.ofNat 123

/-- The closing curly-brace character. -/
def rbrace : Char := Char.ofNat 125

/-- The three-character opening delimiter used by `wrap_terms`. -/
def braceOpen : List Char := [lbrace, lbrace, lbrace]

/-- The three-character closing delimiter used by `wrap_terms`. -/
def braceClose : List Char := [rbrace, rbrace, rbrace]

/-- Remove the trailing run of characters satisfying `p`
(the mirror image of `List.dropWhile`). -/
def dropTrail (p : Char → Bool) (l : List Char) : List Char :=
  (l.reverse.dropWhile p).reverse

/-- Strip characters satisfying `p` from both ends, as Python's
`str.strip(chars)` does. -/
def pyStripBy (p : Char → Bool) (l : List Char) : List Char :=
  dropTrail p (l.dropWhile p)

/-- Python `str.strip()` with no argument: strip whitespace. -/
def pyStrip (l : List Char) : List Char := pyStripBy isPySpace l

/-- Fuelled scanner for `re.findall(r'\w+|[\w-]+', text, re.UNICODE)`
from `wrap_terms` (src/telegram_bot.py line 27): at a word character the
first alternative takes the maximal `\w+` run; otherwise, at a `-` the
second alternative takes the maximal `[\w-]+` run; other characters are
skipped. The fuel only serves structural recursion; any fuel at least the
input length gives the scan's value. -/
def pyFindTokensF : Nat → List Char → List (List Char)
  | _, [] => []
  | 0, _ :: _ => []
  | f + 1, c :: cs =>
    if isWordChar c then
      (c :: cs.takeWhile isWordChar) :: pyFindTokensF f (cs.dropWhile isWordChar)
    else if c = '-' then
      (c :: cs.takeWhile (fun d => isWordChar d || d = '-')) ::
        pyFindTokensF f (cs.dropWhile (fun d => isWordChar d || d = '-'))
    else pyFindTokensF f cs

/-- `re.findall(r'\w+|[\w-]+', text, re.UNICODE)`. -/
def pyFindTokens (text : List Char) : List (List Char) :=
  pyFindTokensF text.length text

theorem pyFindTokensF_eq_len : ∀ (f : Nat) (l : List Char), l.length ≤ f →
    pyFindTokensF f l = pyFindTokensF l.length l
  | f, [], _ => by cases f <;> rfl
  | 0, c :: cs, h => by simp at h
  | f + 1, c :: cs, h => by
    simp only [List.length_cons] at h ⊢
    rw [pyFindTokensF, pyFindTokensF]
    have hd1 : (cs.dropWhile isWordChar).length ≤ cs.length :=
      (List.dropWhile_sublist _).length_le
    have hd2 : (cs.dropWhile (fun d => isWordChar d || d = '-')).length ≤ cs.length :=
      (List.dropWhile_sublist _).length_le
    have h1 := pyFindTokensF_eq_len f (cs.dropWhile isWordChar) (by omega)
    have h2 := pyFindTokensF_eq_len cs.length (cs.dropWhile isWordChar) hd1
    have h3 := pyFindTokensF_eq_len f (cs.dropWhile (fun d => isWordChar d || d = '-'))
      (by omega)
    have h4 := pyFindTokensF_eq_len cs.length
      (cs.dropWhile (fun d => isWordChar d || d = '-')) hd2
    have h5 := pyFindTokensF_eq_len f cs (by omega)
    rw [h1, h3, h5, ← h2, ← h4]
termination_by f l _ => f
decreasing_by
  all_goals simp only [List.length_cons] at h
  all_goals omega

/-- Word-boundary test `\b` between an optional previous character and an
optional next character: exactly one of the two is a word character. -/
def bdryB (a b : Option Char) : Bool :=
  (match a with | some c => isWordChar c | none => false) !=
  (match b with | some c => isWordChar c | none => false)

/-- Match test for the substitution pattern
`(?<!\{\{\{)\b<word>\b(?!\}\}\})` of `wrap_terms`
(src/telegram_bot.py line 48) at the current scan position.
`pre` is the reversed list of already-consumed original characters (the
lookbehind window), `rest` the remaining input. -/
def matchesAt (w pre rest : List Char) : Bool :=
  !w.isEmpty && w.isPrefixOf rest &&
  bdryB pre.head? w.head? &&
  bdryB w.getLast? (rest.drop w.length).head? &&
  !braceOpen.isPrefixOf pre &&
  !braceClose.isPrefixOf (rest.drop w.length)

/-- Fuelled scanner for `pattern.sub(...)` from `wrap_terms`: leftmost,
non-overlapping replacement of every guarded occurrence of `w` by
the occurrence wrapped in the triple-brace delimiters; lookbehind reads the
original consumed characters `pre`. Any fuel at least the input length
gives the scan's value. -/
def subWordGoF (w : List Char) : Nat → List Char → List Char → List Char
  | _, _, [] => []
  | 0, _, _ :: _ => []
  | f + 1, pre, c :: cs =>
    if matchesAt w pre (c :: cs) then
      braceOpen ++ w ++ braceClose ++
        subWordGoF w f (w.reverse ++ pre) ((c :: cs).drop w.length)
    else
      c :: subWordGoF w f (c :: pre) cs

/-- The substitution scanner at adequate fuel. -/
def subWordGo (w pre rest : List Char) : List Char :=
  subWordGoF w rest.length pre rest

theorem subWordGoF_eq_len (w : List Char) : ∀ (f : Nat) (pre rest : List Char),
    rest.length ≤ f → subWordGoF w f pre rest = subWordGoF w rest.length pre rest
  | f, pre, [], _ => by cases f <;> rfl
  | 0, pre, c :: cs, h => by simp at h
  | f + 1, pre, c :: cs, h => by
    simp only [List.length_cons] at h ⊢
    rw [subWordGoF, subWordGoF]
    by_cases hm : matchesAt w pre (c :: cs) = true
    · rw [if_pos hm, if_pos hm]
      have hwlen : 0 < w.length := by
        have hwne : w ≠ [] := by
          intro he
          subst he
          simp [matchesAt] at hm
        exact List.length_pos.mpr hwne
      have hdl : ((c :: cs).drop w.length).length ≤ cs.length := by
        simp only [List.length_drop, List.length_cons]
        omega
      rw [subWordGoF_eq_len w f (w.reverse ++ pre) ((c :: cs).drop w.length) (by omega),
        subWordGoF_eq_len w cs.length (w.reverse ++ pre) ((c :: cs).drop w.length) hdl]
    · rw [if_neg hm, if_neg hm, subWordGoF_eq_len w f (c :: pre) cs (by omega)]
termination_by f pre rest _ => f
decreasing_by
  all_goals simp only [List.length_cons] at h
  all_goals omega

theorem subWordGo_nil (w pre : List Char) : subWordGo w pre [] = [] := rfl

theorem subWordGo_cons (w pre : List Char) (c : Char) (cs : List Char) :
    subWordGo w pre (c :: cs)
      = if matchesAt w pre (c :: cs) then
          braceOpen ++ w ++ braceClose
            ++ subWordGo w (w.reverse ++ pre) ((c :: cs).drop w.length)
        else c :: subWordGo w (c :: pre) cs := by
  rw [subWordGo, List.length_cons, subWordGoF]
  by_cases hm : matchesAt w pre (c :: cs) = true
  · rw [if_pos hm, if_pos hm]
    have hwlen : 0 < w.length := by
      have hwne : w ≠ [] := by
        intro he
        subst he
        simp [matchesAt] at hm
      exact List.length_pos.mpr hwne
    have hdl : ((c :: cs).drop w.length).length ≤ cs.length := by
      simp only [List.length_drop, List.length_cons]
      omega
    rw [subWordGo, subWordGoF_eq_len w cs.length (w.reverse ++ pre)
      ((c :: cs).drop w.length) hdl]
  · rw [if_neg hm, if_neg hm, subWordGo]

/-- One regex substitution step of `wrap_terms` for a single word `w`:
`re.compile(rf'(?<!\{\{\{)\b{re.escape(word)}\b(?!\}\}\})').sub(...)`.
The source never calls it with an empty word (tokens are nonempty); the
empty case is the identity. -/
def subWordPat (w text : List Char) : List Char :=
  if w.isEmpty then text else subWordGo w [] text

/-- Helper for `unwrap_terms`: the non-greedy search for the closing
delimiter in `\{\{\{(.*?)\}\}\}`. Scans for the earliest `}}}`;
`.` does not match a newline (no `re.DOTALL` in the source), so a newline
before the closing delimiter makes the match fail. Returns the captured
group and the remainder after the closing delimiter. -/
def findClose : List Char → Option (List Char × List Char)
  | [] => none
  | c :: cs =>
    if braceClose.isPrefixOf (c :: cs) then some ([], (c :: cs).drop 3)
    else if c = '\n' then none
    else (findClose cs).map (fun mr => (c :: mr.1, mr.2))

theorem findClose_length {l m r : List Char} (h : findClose l = some (m, r)) :
    r.length + 3 ≤ l.length := by
  induction l generalizing m r with
  | nil => simp [findClose] at h
  | cons c cs ih =>
    rw [findClose] at h
    by_cases hp : braceClose.isPrefixOf (c :: cs)
    · rw [if_pos hp] at h
      have hlen : 3 ≤ (c :: cs).length := by
        have := List.IsPrefix.length_le (List.isPrefixOf_iff_prefix.mp hp)
        simpa [braceClose] using this
      simp only [Option.some.injEq, Prod.mk.injEq] at h
      rw [← h.2]
      simp only [List.length_drop]
      omega
    · rw [if_neg hp] at h
      by_cases hn : c = '\n'
      · simp [hn] at h
      · rw [if_neg hn] at h
        cases hfc : findClose cs with
        | none => simp [hfc] at h
        | some mr =>
          simp only [hfc, Option.map_some', Option.some.injEq, Prod.mk.injEq] at h
          have := ih (m := mr.1) (r := mr.2) (by rw [hfc])
          rw [← h.2]
          simp only [List.length_cons]
          omega

/-- Fuelled scanner embedding `unwrap_terms` (src/telegram_bot.py lines
54-55): `re.sub(r'\{\{\{(.*?)\}\}\}', r'\1', text)`, a leftmost
non-overlapping scan replacing each delimited span by its contents. Any
fuel at least the input length gives the scan's value. -/
def unwrapGoF : Nat → List Char → List Char
  | _, [] => []
  | 0, _ :: _ => []
  | f + 1, c :: cs =>
    if braceOpen.isPrefixOf (c :: cs) then
      match findClose ((c :: cs).drop 3) with
      | some mr => mr.1 ++ unwrapGoF f mr.2
      | none => c :: unwrapGoF f cs
    else c :: unwrapGoF f cs

/-- The unwrapping scanner at adequate fuel. -/
def unwrapGo (l : List Char) : List Char := unwrapGoF l.length l

theorem unwrapGoF_eq_len : ∀ (f : Nat) (l : List Char), l.length ≤ f →
    unwrapGoF f l = unwrapGoF l.length l
  | f, [], _ => by cases f <;> rfl
  | 0, c :: cs, h => by simp at h
  | f + 1, c :: cs, h => by
    simp only [List.length_cons] at h ⊢
    rw [unwrapGoF, unwrapGoF]
    by_cases hp : braceOpen.isPrefixOf (c :: cs) = true
    · rw [if_pos hp, if_pos hp]
      cases hfc : findClose ((c :: cs).drop 3) with
      | none =>
        show c :: unwrapGoF f cs = c :: unwrapGoF cs.length cs
        rw [unwrapGoF_eq_len f cs (by omega)]
      | some mr =>
        have hlen := findClose_length hfc
        simp only [List.length_drop, List.length_cons] at hlen
        show mr.1 ++ unwrapGoF f mr.2 = mr.1 ++ unwrapGoF cs.length mr.2
        rw [unwrapGoF_eq_len f mr.2 (by omega),
          unwrapGoF_eq_len cs.length mr.2 (by omega)]
    · rw [if_neg hp, if_neg hp, unwrapGoF_eq_len f cs (by omega)]
termination_by f l _ => f
decreasing_by
  all_goals simp only [List.length_cons] at h
  all_goals omega

theorem unwrapGo_nil : unwrapGo [] = [] := rfl

theorem unwrapGo_cons (c : Char) (cs : List Char) :
    unwrapGo (c :: cs)
      = if braceOpen.isPrefixOf (c :: cs) then
          match findClose ((c :: cs).drop 3) with
          | some mr => mr.1 ++ unwrapGo mr.2
          | none => c :: unwrapGo cs
        else c :: unwrapGo cs := by
  rw [unwrapGo, List.length_cons, unwrapGoF]
  by_cases hp : braceOpen.isPrefixOf (c :: cs) = true
  · rw [if_pos hp, if_pos hp]
    cases hfc : findClose ((c :: cs).drop 3) with
    | none =>
      show c :: unwrapGoF cs.length cs = c :: unwrapGo cs
      rw [unwrapGo]
    | some mr =>
      have hlen := findClose_length hfc
      simp only [List.length_drop, List.length_cons] at hlen
      show mr.1 ++ unwrapGoF cs.length mr.2 = mr.1 ++ unwrapGo mr.2
      rw [unwrapGo, unwrapGoF_eq_len cs.length mr.2 (by omega)]
  · rw [if_neg hp, if_neg hp]
    show c :: unwrapGoF cs.length cs = c :: unwrapGo cs
    rw [unwrapGo]

/-- `unwrap_terms(text)` from src/telegram_bot.py lines 54-55. -/
def unwrap_terms (text : List Char) : List Char := unwrapGo text

/-- Lower-casing a text, embedding Python `str.lower()` (the embedding
uses `Char.toLower`). -/
def lowerText (l : List Char) : List Char := l.map Char.toLower

/-- The fuzzy/exact match test of `wrap_terms` (src/telegram_bot.py line
46): `fuzz.ratio(word.lower(), form.lower()) > 85 or word.lower() ==
form.lower()`. The rapidfuzz score is the external parameter `ratio`
(a percentage, 0-100). -/
def matchWF (ratio : List Char → List Char → Nat) (word form : List Char) : Bool :=
  decide (85 < ratio (lowerText word) (lowerText form)) ||
    lowerText word == lowerText form

/-- Python `str.split()` with no argument (used for `term.split()`):
split on whitespace runs, no empty pieces. -/
def pySplitWSF : Nat → List Char → List (List Char)
  | _, [] => []
  | 0, _ :: _ => []
  | f + 1, c :: cs =>
    if isPySpace c then pySplitWSF f cs
    else (c :: cs.takeWhile (fun d => !isPySpace d)) ::
      pySplitWSF f (cs.dropWhile (fun d => !isPySpace d))

/-- The whitespace splitter at adequate fuel. -/
def pySplitWS (l : List Char) : List (List Char) := pySplitWSF l.length l

/-- The set of forms computed for one term in `wrap_terms`
(src/telegram_bot.py lines 33-41): the morphological normal forms of every
word of the term — supplied by the external parameter `lexforms`
(pymorphy3) — plus the term itself. The source collects them in a Python
set; only membership is ever used, so a list is a faithful model. -/
def termForms (lexforms : List Char → List (List Char)) (term : List Char) :
    List (List Char) :=
  ((pySplitWS term).flatMap lexforms) ++ [term]

/-- Stable insertion of a term into a length-descending sorted list;
together with `pySortLenDesc` this models Python's stable
`sorted(terms, key=len, reverse=True)` (src/telegram_bot.py line 30). -/
def insertByLenDesc (x : List Char) : List (List Char) → List (List Char)
  | [] => [x]
  | y :: ys => if y.length ≤ x.length then x :: y :: ys else y :: insertByLenDesc x ys

/-- `sorted(terms, key=len, reverse=True)`: stable, longest first. -/
def pySortLenDesc (l : List (List Char)) : List (List Char) :=
  l.foldr insertByLenDesc []

/-- The per-word step of `wrap_terms`' inner loop (src/telegram_bot.py
lines 43-50): if some form matches the word fuzzily or exactly and the
word has not been wrapped yet, substitute every guarded occurrence and
record the word as wrapped. State is (current text, wrapped words). -/
def wrapFoldWord (ratio : List Char → List Char → Nat)
    (forms : List (List Char)) (st : List Char × List (List Char))
    (word : List Char) : List Char × List (List Char) :=
  if (forms.any (fun f => matchWF ratio word f)) && !st.2.contains word then
    (subWordPat word st.1, word :: st.2)
  else st

/-- The per-term step of `wrap_terms`' outer loop (src/telegram_bot.py
lines 30-50): empty terms are skipped (`if not term: continue`); otherwise
the term's forms are computed and all words are processed. -/
def wrapFoldTerm (lexforms : List Char → List (List Char))
    (ratio : List Char → List Char → Nat) (words : List (List Char))
    (st : List Char × List (List Char)) (term : List Char) :
    List Char × List (List Char) :=
  if term.isEmpty then st
  else words.foldl (wrapFoldWord ratio (termForms lexforms term)) st

/-- Embeds `wrap_terms(text, terms)` (src/telegram_bot.py lines 25-51).
`lexforms` stands for the pymorphy3 lexeme normal forms and `ratio` for
`rapidfuzz.fuzz.ratio`, the two external collaborators. The token list is
computed once from the original text; the text evolves through the guarded
delimiter substitutions; the wrapped-word set persists across terms. -/
def wrap_terms (lexforms : List Char → List (List Char))
    (ratio : List Char → List Char → Nat)
    (text : List Char) (terms : List (List Char)) : List Char :=
  let words := pyFindTokens text
  (( pySortLenDesc terms).foldl (wrapFoldTerm lexforms ratio words) (text, [])).1

/-- Trivial instantiation of the morphological-forms collaborator. -/
def noForms : List Char → List (List Char) := fun _ => []

/-- Trivial instantiation of the fuzzy-similarity collaborator. -/
def zeroRatio : List Char → List Char → Nat := fun _ _ => 0

/-- First pass of `fix_dash_spacing` (src/telegram_bot.py line 61):
`re.sub(r'(\w)—(\w)', r'\1 — \2', text)`, leftmost non-overlapping. -/
def dashPass1 : List Char → List Char
  | a :: '—' :: b :: rest =>
    if isWordChar a && isWordChar b then
      a :: ' ' :: '—' :: ' ' :: b :: dashPass1 rest
    else a :: dashPass1 ('—' :: b :: rest)
  | a :: rest => a :: dashPass1 rest
  | [] => []

/-- Second pass of `fix_dash_spacing` (src/telegram_bot.py line 62):
`re.sub(r'(\w) —(\w)', r'\1 — \2', text)`. -/
def dashPass2 : List Char → List Char
  | a :: ' ' :: '—' :: b :: rest =>
    if isWordChar a && isWordChar b then
      a :: ' ' :: '—' :: ' ' :: b :: dashPass2 rest
    else a :: dashPass2 (' ' :: '—' :: b :: rest)
  | a :: rest => a :: dashPass2 rest
  | [] => []

/-- Third pass of `fix_dash_spacing` (src/telegram_bot.py line 63):
`re.sub(r'(\w)— (\w)', r'\1 — \2', text)`. -/
def dashPass3 : List Char → List Char
  | a :: '—' :: ' ' :: b :: rest =>
    if isWordChar a && isWordChar b then
      a :: ' ' :: '—' :: ' ' :: b :: dashPass3 rest
    else a :: dashPass3 ('—' :: ' ' :: b :: rest)
  | a :: rest => a :: dashPass3 rest
  | [] => []

/-- Embeds `fix_dash_spacing` (src/telegram_bot.py lines 58-64): three
sequential regex substitutions normalizing em-dash spacing. -/
def fix_dash_spacing (text : List Char) : List Char :=
  dashPass3 (dashPass2 (dashPass1 text))

/-- Sentence-terminal punctuation of `split_into_sentences`. -/
def isTermCh (c : Char) : Bool := c = '.' || c = '?' || c = '!'

/-- Scanner for `re.split(r'(?<=[.?!])\s*', text)` from
`split_into_sentences` (src/ai.py line 45): a split point occurs after
every terminator character, the separator being the (possibly empty)
whitespace run that follows; the terminator stays with the preceding
piece. -/
def splitGoF : Nat → List Char → List Char → List (List Char)
  | _, acc, [] => [acc.reverse]
  | 0, acc, _ :: _ => [acc.reverse]
  | f + 1, acc, c :: cs =>
    if isTermCh c then
      (c :: acc).reverse :: splitGoF f [] (cs.dropWhile isPySpace)
    else splitGoF f (c :: acc) cs

/-- The sentence-splitting scanner at adequate fuel. -/
def splitGo (acc l : List Char) : List (List Char) := splitGoF l.length acc l

theorem splitGoF_eq_len : ∀ (f : Nat) (acc l : List Char), l.length ≤ f →
    splitGoF f acc l = splitGoF l.length acc l
  | f, acc, [], _ => by cases f <;> rfl
  | 0, acc, c :: cs, h => by simp at h
  | f + 1, acc, c :: cs, h => by
    simp only [List.length_cons] at h ⊢
    rw [splitGoF, splitGoF]
    have hd : (cs.dropWhile isPySpace).length ≤ cs.length :=
      (List.dropWhile_sublist _).length_le
    by_cases ht : isTermCh c = true
    · rw [if_pos ht, if_pos ht,
        splitGoF_eq_len f [] (cs.dropWhile isPySpace) (by omega),
        splitGoF_eq_len cs.length [] (cs.dropWhile isPySpace) hd]
    · rw [if_neg ht, if_neg ht, splitGoF_eq_len f (c :: acc) cs (by omega)]
termination_by f acc l _ => f
decreasing_by
  all_goals simp only [List.length_cons] at h
  all_goals omega

theorem splitGo_nil (acc : List Char) : splitGo acc [] = [acc.reverse] := rfl

theorem splitGo_cons (acc : List Char) (c : Char) (cs : List Char) :
    splitGo acc (c :: cs)
      = if isTermCh c then
          (c :: acc).reverse :: splitGo [] (cs.dropWhile isPySpace)
        else splitGo (c :: acc) cs := by
  rw [splitGo, List.length_cons, splitGoF]
  by_cases ht : isTermCh c = true
  · rw [if_pos ht, if_pos ht, splitGo,
      splitGoF_eq_len cs.length [] (cs.dropWhile isPySpace)
        (List.dropWhile_sublist _).length_le]
  · rw [if_neg ht, if_neg ht, splitGo]

/-- The raw pieces of `re.split(r'(?<=[.?!])\s*', text)`. -/
def splitRaw (text : List Char) : List (List Char) := splitGo [] text

/-- Embeds `AIGrammarChecker.split_into_sentences` (src/ai.py lines
43-46): `[p.strip() for p in re.split(r'(?<=[.?!])\s*', text) if
p.strip()]`. -/
def split_into_sentences (text : List Char) : List (List Char) :=
  (splitRaw text).filterMap (fun p =>
    let s := pyStrip p
    if s.isEmpty then none else some s)

/-- Find the first occurrence of `key` in `text` and return the suffix
after it; `none` when `key` does not occur (the `re.search` scan for a
pattern beginning with a literal key). -/
def findAfterKey (key : List Char) : List Char → Option (List Char)
  | [] => if key.isEmpty then some [] else none
  | c :: cs =>
    if key.isPrefixOf (c :: cs) then some ((c :: cs).drop key.length)
    else findAfterKey key cs

/-- The literal key of the explanation field regex (src/ai.py line 87). -/
def explKey : List Char := ("Объяснение:").toList

/-- The literal key of the corrected-sentence field regex
(src/ai.py line 88). -/
def corrKey : List Char := ("Исправленное предложение:").toList

/-- Lookahead test `(?=\nИсправленное|$)` of the explanation regex:
either the literal `\nИсправленное` follows, or the end of the string
(Python `$` also matches just before a final newline). -/
def explLookahead (u : List Char) : Bool :=
  (('\n' :: ("Исправленное").toList).isPrefixOf u) || u.isEmpty || u == ['\n']

/-- The lazy group `(.*?)` with `re.DOTALL` bounded by `explLookahead`:
take characters until the first position where the lookahead holds. -/
def lazyUntil : List Char → List Char
  | [] => []
  | c :: cs => if explLookahead (c :: cs) then [] else c :: lazyUntil cs

/-- The group captured by
`re.search(r"Объяснение:\s*(.*?)(?=\nИсправленное|$)", content, re.DOTALL)`
(src/ai.py line 87): after the first key, greedy `\s*`, then the lazy
group up to the lookahead ( which can always be satisfied at the end, so
the search succeeds exactly when the key occurs). -/
def explGroup (content : List Char) : Option (List Char) :=
  (findAfterKey explKey content).map (fun rest => lazyUntil (rest.dropWhile isPySpace))

/-- The group captured by
`re.search(r"Исправленное предложение:\s*(.*)", content)`
(src/ai.py line 88): after the first key, greedy `\s*`, then `.*` without
`re.DOTALL` — up to the next newline or the end. -/
def corrGroup (content : List Char) : Option (List Char) :=
  (findAfterKey corrKey content).map (fun rest =>
    (rest.dropWhile isPySpace).takeWhile (fun c => c != '\n'))

/-- The generic failure marker returned on any caught exception
(src/ai.py line 98). -/
def failMarker : List Char := ("Ошибка при анализе").toList

/-- Embeds `AIGrammarChecker.analyze_and_correct` (src/ai.py lines
48-98). The transport (HTTP request, status check, JSON field access) is
the `resp` argument: `Except.error` is any raised exception, caught by the
source's blanket `except` and turned into the failure marker with the
sentence echoed; `Except.ok content` is the extracted message content.
On success the content is stripped, the two fields are parsed, an absent
corrected field falls back to the stripped input sentence, and stray `*`
emphasis markers are stripped from the corrected field. -/
def analyze_and_correct (resp : Except Unit (List Char)) (sentence : List Char) :
    List Char × List Char :=
  match resp with
  | .error _ => (failMarker, sentence)
  | .ok raw =>
    let content := pyStrip raw
    let explanation := pyStrip (match explGroup content with
      | some g => pyStrip g
      | none => [])
    let corrected := match corrGroup content with
      | some g => pyStrip g
      | none => pyStrip sentence
    (explanation, pyStripBy (fun c => c = '*') corrected)

/-- The "no errors found" explanation used by
`check_text_with_explanations` (src/ai.py line 118). -/
def noErrorsFound : List Char := ("Ошибок не найдено").toList

/-- Embeds `AIGrammarChecker.check_text_with_explanations` (src/ai.py
lines 100-120): empty input gives no results; otherwise each sentence is
analyzed and collected as (original, corrected, explanation), with the
explanation replaced by the "no errors" marker when the correction equals
the sentence. `resp` supplies the oracle response for each sentence. -/
def check_text_with_explanations (resp : List Char → Except Unit (List Char))
    (text : List Char) : List (List Char × List Char × List Char) :=
  if text.isEmpty then []
  else (split_into_sentences text).map (fun s =>
    let ec := analyze_and_correct (resp s) s
    if ec.2 ≠ s then (s, ec.2, ec.1) else (s, ec.2, noErrorsFound))

/-- Scanner for `re.split(r',\s*', content)` used by
`load_dictionary_terms` (src/telegram_bot.py line 20 and src/ai.py line
19): split at every comma, the separator also consuming the whitespace
run after the comma. -/
def splitCommaGoF : Nat → List Char → List Char → List (List Char)
  | _, acc, [] => [acc.reverse]
  | 0, acc, _ :: _ => [acc.reverse]
  | f + 1, acc, c :: cs =>
    if c = ',' then acc.reverse :: splitCommaGoF f [] (cs.dropWhile isPySpace)
    else splitCommaGoF f (c :: acc) cs

/-- The comma splitter at adequate fuel. -/
def splitCommaGo (acc l : List Char) : List (List Char) :=
  splitCommaGoF l.length acc l

theorem splitCommaGoF_eq_len : ∀ (f : Nat) (acc l : List Char), l.length ≤ f →
    splitCommaGoF f acc l = splitCommaGoF l.length acc l
  | f, acc, [], _ => by cases f <;> rfl
  | 0, acc, c :: cs, h => by simp at h
  | f + 1, acc, c :: cs, h => by
    simp only [List.length_cons] at h ⊢
    rw [splitCommaGoF, splitCommaGoF]
    have hd : (cs.dropWhile isPySpace).length ≤ cs.length :=
      (List.dropWhile_sublist _).length_le
    by_cases ht : c = ','
    · rw [if_pos ht, if_pos ht,
        splitCommaGoF_eq_len f [] (cs.dropWhile isPySpace) (by omega),
        splitCommaGoF_eq_len cs.length [] (cs.dropWhile isPySpace) hd]
    · rw [if_neg ht, if_neg ht, splitCommaGoF_eq_len f (c :: acc) cs (by omega)]
termination_by f acc l _ => f
decreasing_by
  all_goals simp only [List.length_cons] at h
  all_goals omega

theorem splitCommaGo_nil (acc : List Char) : splitCommaGo acc [] = [acc.reverse] := rfl

theorem splitCommaGo_cons (acc : List Char) (c : Char) (cs : List Char) :
    splitCommaGo acc (c :: cs)
      = if c = ',' then acc.reverse :: splitCommaGo [] (cs.dropWhile isPySpace)
        else splitCommaGo (c :: acc) cs := by
  rw [splitCommaGo, List.length_cons, splitCommaGoF]
  by_cases ht : c = ','
  · rw [if_pos ht, if_pos ht, splitCommaGo,
      splitCommaGoF_eq_len cs.length [] (cs.dropWhile isPySpace)
        (List.dropWhile_sublist _).length_le]
  · rw [if_neg ht, if_neg ht, splitCommaGo]

/-- The characters stripped from each glossary token:
`w.strip(' "\'')` — space, double quote, single quote. -/
def isQuoteSpace (c : Char) : Bool :=
  c = ' ' || c = Char.ofNat 34 || c = Char.ofNat 39

/-- Embeds `load_dictionary_terms` (src/telegram_bot.py lines 16-23,
identically src/ai.py lines 14-24). The file read is the external input:
`none` is any exception while opening/reading (the `except` branch
returning `[]`), `some content` the file's text. Tokens are the
comma-split pieces with surrounding space/quote characters stripped,
empty tokens removed. -/
def load_dictionary_terms (file : Option (List Char)) : List (List Char) :=
  match file with
  | none => []
  | some content =>
    ((splitCommaGo [] content).map (pyStripBy isQuoteSpace)).filter
      (fun t => !t.isEmpty)

/-- Scanner for `pyReplaceFirst` (nonempty pattern). -/
def pyReplaceFirstGo (old new : List Char) : List Char → List Char
  | [] => []
  | c :: cs =>
    if old.isPrefixOf (c :: cs) then new ++ (c :: cs).drop old.length
    else c :: pyReplaceFirstGo old new cs

/-- Python `str.replace(old, new, 1)`: replace the first occurrence.
With an empty `old`, Python inserts `new` before the text. -/
def pyReplaceFirst (s old new : List Char) : List Char :=
  if old.isEmpty then new ++ s else pyReplaceFirstGo old new s

/-- A user session: the value stored in the `user_sessions` dictionary
(src/telegram_bot.py lines 88, 117-121), with the optional
`last_correction` entry added by `handle_choice` and removed by
`handle_correction`. -/
structure Session where
  original_text : List Char
  errors : List (List Char × List Char × List Char)
  current_idx : Nat
  last_correction : Option (List Char × List Char)
deriving DecidableEq, Repr

/-- The outbound effects of the handlers; each constructor stands for one
`message.answer` / `bot.send_message` / `callback.answer` call of
src/telegram_bot.py, carrying the data interpolated into its text. -/
inductive Msg where
  | analyzing : Msg
  | noErrors : Msg
  | errorFound (orig expl corr : List Char) : Msg
  | suggestion (orig corr : List Char) : Msg
  | finalText (text : List Char) : Msg
  | cbSessionExpired : Msg
  | cbNoCorrection : Msg
  | cbOk : Msg
deriving DecidableEq, Repr

/-- An inline-keyboard choice (`callback_data` token). -/
inductive Choice where
  | suggest : Choice
  | skip : Choice
  | accept : Choice
  | reject : Choice
deriving DecidableEq, Repr

/-- The in-memory session table `user_sessions`, keyed by chat id. -/
abbrev Table := List (Nat × Session)

/-- Dictionary lookup `user_sessions.get(chat_id)`. -/
def tget : Table → Nat → Option Session
  | [], _ => none
  | (k, s) :: t, k' => if k = k' then some s else tget t k'

/-- Dictionary update `user_sessions[chat_id] = session`. -/
def tset : Table → Nat → Session → Table
  | [], k, s => [(k, s)]
  | (k0, s0) :: t, k, s =>
    if k0 = k then (k, s) :: t else (k0, s0) :: tset t k s

/-- Dictionary removal `user_sessions.pop(chat_id, None)` (the removal
part; the value is read with `tget`). -/
def tdel : Table → Nat → Table
  | [], _ => []
  | (k, s) :: t, k' => if k = k' then t else (k, s) :: tdel t k'

/-- Embeds `finish_correction` (src/telegram_bot.py lines 224-237): pop
the session; if none was present do nothing, otherwise send the final
text — the accumulated `original_text` after unwrapping and dash
normalization — and leave the table without the entry. -/
def finish_correction (table : Table) (chat : Nat) : List Msg × Table :=
  match tget table chat with
  | none => ([], table)
  | some s =>
    ([Msg.finalText (fix_dash_spacing (unwrap_terms s.original_text))], tdel table chat)

/-- Embeds `send_next_error` (src/telegram_bot.py lines 127-152): when
the session is missing or the cursor has reached the queue length, finish;
otherwise present the current queue item (unwrapped, dash-normalized)
with the suggest/skip keyboard. -/
def send_next_error (table : Table) (chat : Nat) : List Msg × Table :=
  match tget table chat with
  | none => finish_correction table chat
  | some s =>
    if h : s.current_idx < s.errors.length then
      let t := s.errors.get ⟨s.current_idx, h⟩
      ([Msg.errorFound (fix_dash_spacing (unwrap_terms t.1))
          (fix_dash_spacing (unwrap_terms t.2.2))
          (fix_dash_spacing (unwrap_terms t.2.1))], table)
    else finish_correction table chat

/-- Embeds `process_user_text` (src/telegram_bot.py lines 97-124).
`lexforms`/`ratio` parameterize `wrap_terms`' external collaborators,
`resp` the oracle transport, `terms` the glossary loaded from disk. The
submitted text is wrapped, analyzed, and the triples whose original and
corrected parts differ become the review queue; an empty queue produces
the "no errors" answer and leaves the table untouched, otherwise a fresh
session (cursor 0) is stored and the first error is presented. -/
def process_user_text (lexforms : List Char → List (List Char))
    (ratio : List Char → List Char → Nat)
    (resp : List Char → Except Unit (List Char))
    (terms : List (List Char)) (table : Table) (chat : Nat)
    (user_text : List Char) : List Msg × Table :=
  let wrapped_text := wrap_terms lexforms ratio user_text terms
  let results := check_text_with_explanations resp wrapped_text
  let error_sentences := results.filter (fun item => item.1 ≠ item.2.1)
  if error_sentences.isEmpty then
    ([Msg.analyzing, Msg.noErrors], table)
  else
    let table1 := tset table chat
      { original_text := user_text, errors := error_sentences,
        current_idx := 0, last_correction := none }
    let mt := send_next_error table1 chat
    (Msg.analyzing :: mt.1, mt.2)

/-- Embeds `handle_choice` (src/telegram_bot.py lines 155-193), the
suggest/skip callback handler. A missing session is answered with the
"session expired" warning. Reading `errors[current_idx]` out of range
raises `IndexError` in Python, modeled by `none`. On `suggest` the
normalized pair is stored as `last_correction` and the accept/reject
keyboard is shown; on `skip` the cursor advances and the next item is
presented. The plain `callback.answer()` closes each handled callback. -/
def handle_choice (table : Table) (chat : Nat) (choice : Choice) :
    Option (List Msg × Table) :=
  match tget table chat with
  | none => some ([Msg.cbSessionExpired], table)
  | some s =>
    match s.errors.get? s.current_idx with
    | none => none
    | some t =>
      let o := fix_dash_spacing (unwrap_terms t.1)
      let c := fix_dash_spacing (unwrap_terms t.2.1)
      match choice with
      | Choice.suggest =>
        some ([Msg.suggestion o c, Msg.cbOk],
          tset table chat { s with last_correction := some (o, c) })
      | _ =>
        let table1 := tset table chat { s with current_idx := s.current_idx + 1 }
        let mt := send_next_error table1 chat
        some (mt.1 ++ [Msg.cbOk], mt.2)

/-- Embeds `handle_correction` (src/telegram_bot.py lines 196-221), the
accept/reject callback handler. A missing session or absent
`last_correction` is answered with the "no available correction" warning
and changes nothing. Otherwise the stored pair is unwrapped and
dash-normalized again, `accept` replaces its first occurrence in
`original_text`, the cursor advances, the pending pair is cleared, the
callback is acknowledged and the next item is presented. -/
def handle_correction (table : Table) (chat : Nat) (choice : Choice) :
    List Msg × Table :=
  match tget table chat with
  | none => ([Msg.cbNoCorrection], table)
  | some s =>
    match s.last_correction with
    | none => ([Msg.cbNoCorrection], table)
    | some p =>
      let o := fix_dash_spacing (unwrap_terms p.1)
      let c := fix_dash_spacing (unwrap_terms p.2)
      let newText := if choice = Choice.accept
        then pyReplaceFirst s.original_text o c
        else s.original_text
      let table1 := tset table chat
        { s with original_text := newText,
                 current_idx := s.current_idx + 1,
                 last_correction := none }
      let mt := send_next_error table1 chat
      (Msg.cbOk :: mt.1, mt.2)

/-- A character that is neither one of the wrap delimiters' braces nor a
hyphen; texts made of such characters tokenize into plain `\w+` runs and
support the algebraic laws of wrapping proved below. -/
def cleanChar (c : Char) : Bool := !(c = lbrace || c = rbrace || c = '-')

/-- A delimiter- and hyphen-free text. -/
def cleanText (t : List Char) : Bool := t.all cleanChar

/-- Normal form of a text during `wrap_terms`: every maximal word run
whose value is in `S` is wrapped in the delimiters, everything else is
unchanged. The invariant proved below is that the evolving text of
`wrap_terms` on a clean input stays in this form. -/
def wrapRuns (S : List (List Char)) : List Char → List Char
  | [] => []
  | c :: cs =>
    if isWordChar c then
      (if S.contains (c :: cs.takeWhile isWordChar) then
        braceOpen ++ (c :: cs.takeWhile isWordChar) ++ braceClose
       else (c :: cs.takeWhile isWordChar)) ++ wrapRuns S (cs.dropWhile isWordChar)
    else c :: wrapRuns S cs
termination_by l => l.length
decreasing_by
  · simp only [List.length_cons]
    exact Nat.lt_succ_of_le (List.dropWhile_sublist _).length_le
  · simp

/-- Constraint on the lookbehind window at a segment boundary: the last
consumed character, if any, is a non-word character other than the
opening brace. -/
def preOK (pre : List Char) : Prop :=
  match pre.head? with
  | none => True
  | some d => isWordChar d = false ∧ d ≠ lbrace

theorem isWordChar_lbrace : isWordChar lbrace = false := by decide

theorem isWordChar_rbrace : isWordChar rbrace = false := by decide

theorem preOK_not_braceOpen {pre : List Char} (h : preOK pre) :
    braceOpen.isPrefixOf pre = false := by
  cases pre with
  | nil => rfl
  | cons d ds =>
    simp only [preOK, List.head?_cons] at h
    have hne : (lbrace == d) = false := by
      simp only [beq_eq_false_iff_ne, ne_eq]
      exact fun he => h.2 he.symm
    simp [braceOpen, List.isPrefixOf_cons₂, hne]

theorem takeWhile_append_all {p : Char → Bool} :
    ∀ {xs ys : List Char}, (∀ x ∈ xs, p x = true) →
      List.takeWhile p (xs ++ ys) = xs ++ List.takeWhile p ys := by
  intro xs ys h
  induction xs with
  | nil => simp
  | cons x xt ih =>
    rw [List.cons_append, List.takeWhile_cons, if_pos (h x (List.mem_cons_self x xt)),
      ih (fun a ha => h a (List.mem_cons_of_mem x ha)), List.cons_append]

theorem dropWhile_append_all {p : Char → Bool} :
    ∀ {xs ys : List Char}, (∀ x ∈ xs, p x = true) →
      List.dropWhile p (xs ++ ys) = List.dropWhile p ys := by
  intro xs ys h
  induction xs with
  | nil => simp
  | cons x xt ih =>
    rw [List.cons_append, List.dropWhile_cons, if_pos (h x (List.mem_cons_self x xt))]
    exact ih (fun a ha => h a (List.mem_cons_of_mem x ha))

theorem subWordGo_not_word {w pre : List Char} {c : Char} {xs : List Char}
    (hw : w ≠ []) (hwall : w.all isWordChar = true) (hc : isWordChar c = false) :
    subWordGo w pre (c :: xs) = c :: subWordGo w (c :: pre) xs := by
  have hm : matchesAt w pre (c :: xs) = false := by
    cases w with
    | nil => exact absurd rfl hw
    | cons w0 wt =>
      have hw0 : isWordChar w0 = true := List.all_eq_true.mp hwall w0 (List.mem_cons_self w0 wt)
      have hne : (w0 == c) = false := by
        simp only [beq_eq_false_iff_ne, ne_eq]
        intro he
        rw [he, hc] at hw0
        exact absurd hw0 (by decide)
      have hpref : ((w0 :: wt).isPrefixOf (c :: xs)) = false := by
        simp [List.isPrefixOf_cons₂, hne]
      simp [matchesAt, hpref]
  rw [subWordGo_cons, if_neg (by simp [hm])]

theorem subWordGo_skip_inner {w : List Char}
    (hwall : w.all isWordChar = true) (hw : w ≠ []) :
    ∀ (r tail pre : List Char) (d : Char), isWordChar d = true →
      r.all isWordChar = true →
      subWordGo w (d :: pre) (r ++ tail)
        = r ++ subWordGo w (r.reverse ++ (d :: pre)) tail := by
  intro r
  induction r with
  | nil => intro tail pre d _ _; simp
  | cons x xt ih =>
    intro tail pre d hd hr
    have hx : isWordChar x = true := List.all_eq_true.mp hr x (List.mem_cons_self x xt)
    have hm : matchesAt w (d :: pre) (x :: (xt ++ tail)) = false := by
      cases w with
      | nil => exact absurd rfl hw
      | cons w0 wt =>
        have hw0 : isWordChar w0 = true :=
          List.all_eq_true.mp hwall w0 (List.mem_cons_self w0 wt)
        have hb : bdryB (some d) (some w0) = false := by
          simp [bdryB, hd, hw0]
        simp [matchesAt, hb]
    have hxt : xt.all isWordChar = true := by
      rw [List.all_eq_true]
      intro a ha
      exact List.all_eq_true.mp hr a (List.mem_cons_of_mem x ha)
    rw [List.cons_append, subWordGo_cons, if_neg (by simp [hm]),
      ih tail (d :: pre) x hx hxt]
    simp

theorem matchesAt_run_false {w r tail pre : List Char}
    (hwall : w.all isWordChar = true) (hw : w ≠ [])
    (hrall : r.all isWordChar = true) (hr : r ≠ [])
    (htail : ∀ d, tail.head? = some d → isWordChar d = false)
    (hblock : w = r → braceOpen.isPrefixOf pre = true ∨
      (∃ d, pre.head? = some d ∧ isWordChar d = true) ∨
      braceClose.isPrefixOf tail = true) :
    matchesAt w pre (r ++ tail) = false := by
  by_cases hpref : w.isPrefixOf (r ++ tail) = true
  case neg =>
    simp only [Bool.not_eq_true] at hpref
    simp [matchesAt, hpref]
  case pos =>
    have hwp : w <+: r ++ tail := List.isPrefixOf_iff_prefix.mp hpref
    rcases Nat.lt_trichotomy w.length r.length with hlen | hlen | hlen
    · -- w is a proper prefix of the run: the character after the match is
      -- a word character, so the trailing boundary fails
      obtain ⟨d, hd⟩ : ∃ d, r[w.length]? = some d := by
        cases hh : r[w.length]? with
        | none =>
          rw [List.getElem?_eq_none_iff] at hh
          omega
        | some a => exact ⟨a, rfl⟩
      have hdw : isWordChar d = true := by
        have hmem : d ∈ r := List.getElem?_mem hd
        exact List.all_eq_true.mp hrall d hmem
      have hd3 : (r ++ tail)[w.length]? = some d := by
        rw [List.getElem?_append_left hlen]
        exact hd
      obtain ⟨g, hg⟩ : ∃ g, w.getLast? = some g := by
        cases hwl : w.getLast? with
        | none => exact absurd (List.getLast?_eq_none_iff.mp hwl) hw
        | some g => exact ⟨g, rfl⟩
      have hgw : isWordChar g = true :=
        List.all_eq_true.mp hwall g (List.mem_of_getLast?_eq_some hg)
      have hbb : bdryB w.getLast? ((r ++ tail)[w.length]?) = false := by
        rw [hg, hd3]
        simp [bdryB, hgw, hdw]
      simp [matchesAt, hbb]
    · -- equal length: the word is the run; one of the guards blocks
      have hwr : w = r :=
        List.IsPrefix.eq_of_length
          (List.prefix_of_prefix_length_le hwp (List.prefix_append r tail)
            (Nat.le_of_eq hlen)) hlen
      rcases hblock hwr with hb | ⟨d, hd1, hd2⟩ | hb
      · simp [matchesAt, hb]
      · have hbb : bdryB pre.head? w.head? = false := by
          cases w with
          | nil => exact absurd rfl hw
          | cons w0 wt =>
            have hw0 : isWordChar w0 = true :=
              List.all_eq_true.mp hwall w0 (List.mem_cons_self w0 wt)
            simp [bdryB, hd1, hd2, hw0]
        simp [matchesAt, hbb]
      · have hdrop : (r ++ tail).drop w.length = tail := by
          rw [hwr]
          exact List.drop_left r tail
        simp [matchesAt, hdrop, hb]
    · -- the word is longer than the run: it would have to continue into
      -- `tail`, whose head is not a word character
      have hrw : r <+: w :=
        List.prefix_of_prefix_length_le (List.prefix_append r tail) hwp
          (Nat.le_of_lt hlen)
      obtain ⟨w', hw'⟩ := hrw
      obtain ⟨z, hz⟩ := hwp
      rw [← hw', List.append_assoc] at hz
      have hz' : w' ++ z = tail := List.append_cancel_left hz
      have hw'ne : w' ≠ [] := by
        intro he
        rw [he, List.append_nil] at hw'
        rw [← hw'] at hlen
        omega
      cases w' with
      | nil => exact absurd rfl hw'ne
      | cons v vt =>
        have hvw : isWordChar v = true := by
          have : v ∈ w := by
            rw [← hw']
            exact List.mem_append_right r (List.mem_cons_self v vt)
          exact List.all_eq_true.mp hwall v this
        have : tail.head? = some v := by
          rw [← hz']
          simp
        have := htail v this
        rw [hvw] at this
        exact absurd this (by decide)

theorem matchesAt_run_true {w tail pre : List Char}
    (hwall : w.all isWordChar = true) (hw : w ≠ [])
    (hpre : preOK pre)
    (htail : ∀ d, tail.head? = some d → isWordChar d = false ∧ d ≠ rbrace) :
    matchesAt w pre (w ++ tail) = true := by
  have h1 : w.isEmpty = false := by
    cases w with
    | nil => exact absurd rfl hw
    | cons a as => rfl
  have h2 : w.isPrefixOf (w ++ tail) = true :=
    List.isPrefixOf_iff_prefix.mpr (List.prefix_append w tail)
  obtain ⟨w0, wt, rfl⟩ : ∃ w0 wt, w = w0 :: wt := by
    cases w with
    | nil => exact absurd rfl hw
    | cons a as => exact ⟨a, as, rfl⟩
  have hw0 : isWordChar w0 = true :=
    List.all_eq_true.mp hwall w0 (List.mem_cons_self w0 wt)
  have h3 : bdryB pre.head? (some w0) = true := by
    cases pre with
    | nil => simp [bdryB, hw0]
    | cons d ds =>
      simp only [preOK, List.head?_cons] at hpre
      simp [bdryB, hw0, hpre.1]
  obtain ⟨g, hg⟩ : ∃ g, (w0 :: wt).getLast? = some g := by
    cases hwl : (w0 :: wt).getLast? with
    | none => exact absurd (List.getLast?_eq_none_iff.mp hwl) (by simp)
    | some g => exact ⟨g, rfl⟩
  have hgw : isWordChar g = true :=
    List.all_eq_true.mp hwall g (List.mem_of_getLast?_eq_some hg)
  have h4 : bdryB ((w0 :: wt).getLast?) tail.head? = true := by
    rw [hg]
    cases tail with
    | nil => simp [bdryB, hgw]
    | cons d ds =>
      have := htail d (by simp)
      simp [bdryB, hgw, this.1]
  have h5 : braceOpen.isPrefixOf pre = false := preOK_not_braceOpen hpre
  have h6 : braceClose.isPrefixOf tail = false := by
    cases tail with
    | nil => rfl
    | cons d ds =>
      have hd := (htail d (by simp)).2
      have hne : (rbrace == d) = false := by
        simp only [beq_eq_false_iff_ne, ne_eq]
        exact fun he => hd he.symm
      simp [braceClose, List.isPrefixOf_cons₂, hne]
  simp [matchesAt, h1, h2, h3, h4, h5, h6]

theorem subWordGo_skip_run {w r tail pre : List Char}
    (hwall : w.all isWordChar = true) (hw : w ≠ [])
    (hrall : r.all isWordChar = true) (hr : r ≠ [])
    (htail : ∀ d, tail.head? = some d → isWordChar d = false)
    (hblock : w = r → braceOpen.isPrefixOf pre = true ∨
      (∃ d, pre.head? = some d ∧ isWordChar d = true) ∨
      braceClose.isPrefixOf tail = true) :
    subWordGo w pre (r ++ tail) = r ++ subWordGo w (r.reverse ++ pre) tail := by
  obtain ⟨x, xt, rfl⟩ : ∃ x xt, r = x :: xt := by
    cases r with
    | nil => exact absurd rfl hr
    | cons a as => exact ⟨a, as, rfl⟩
  have hx : isWordChar x = true :=
    List.all_eq_true.mp hrall x (List.mem_cons_self x xt)
  have hxt : xt.all isWordChar = true := by
    rw [List.all_eq_true]
    intro a ha
    exact List.all_eq_true.mp hrall a (List.mem_cons_of_mem x ha)
  have hm : matchesAt w pre ((x :: xt) ++ tail) = false :=
    matchesAt_run_false hwall hw hrall hr htail hblock
  rw [List.cons_append] at hm ⊢
  rw [subWordGo_cons, if_neg (by simp [hm]), subWordGo_skip_inner hwall hw xt tail pre x hx hxt]
  simp

theorem cleanChar_ne {c : Char} (h : cleanChar c = true) :
    c ≠ lbrace ∧ c ≠ rbrace ∧ c ≠ '-' := by
  simp only [cleanChar, Bool.not_eq_eq_eq_not, Bool.not_true, Bool.or_eq_false_iff,
    decide_eq_false_iff_not] at h
  exact ⟨h.1.1, h.1.2, h.2⟩

theorem cleanText_cons {c : Char} {cs : List Char} (h : cleanText (c :: cs) = true) :
    cleanChar c = true ∧ cleanText cs = true := by
  simp only [cleanText, List.all_cons, Bool.and_eq_true] at h
  exact ⟨h.1, h.2⟩

theorem cleanText_sublist {l' l : List Char} (hs : List.Sublist l' l)
    (h : cleanText l = true) : cleanText l' = true := by
  rw [cleanText, List.all_eq_true]
  intro x hx
  exact List.all_eq_true.mp h x (hs.subset hx)

theorem wrapRuns_nil (S : List (List Char)) : wrapRuns S [] = [] := by
  rw [wrapRuns]

theorem wrapRuns_cons_not_word {S : List (List Char)} {c : Char} {cs : List Char}
    (h : isWordChar c = false) : wrapRuns S (c :: cs) = c :: wrapRuns S cs := by
  rw [wrapRuns]
  simp [h]

theorem wrapRuns_cons_word_mem {S : List (List Char)} {c : Char} {cs : List Char}
    (hc : isWordChar c = true)
    (hmem : S.contains (c :: cs.takeWhile isWordChar) = true) :
    wrapRuns S (c :: cs) = braceOpen ++ (c :: cs.takeWhile isWordChar) ++ braceClose
      ++ wrapRuns S (cs.dropWhile isWordChar) := by
  have hm2 : (c :: cs.takeWhile isWordChar) ∈ S := by simpa using hmem
  rw [wrapRuns]
  simp [hc, hm2]

theorem wrapRuns_cons_word_not_mem {S : List (List Char)} {c : Char} {cs : List Char}
    (hc : isWordChar c = true)
    (hmem : S.contains (c :: cs.takeWhile isWordChar) = false) :
    wrapRuns S (c :: cs) = (c :: cs.takeWhile isWordChar)
      ++ wrapRuns S (cs.dropWhile isWordChar) := by
  have hm2 : (c :: cs.takeWhile isWordChar) ∉ S := by simpa using hmem
  rw [wrapRuns]
  simp [hc, hm2]

theorem wrapRuns_head_not_word {S : List (List Char)} {rest : List Char}
    (hclean : cleanText rest = true)
    (hhead : ∀ d, rest.head? = some d → isWordChar d = false) :
    ∀ d, (wrapRuns S rest).head? = some d → isWordChar d = false ∧ d ≠ rbrace := by
  intro d hd
  cases rest with
  | nil => rw [wrapRuns_nil] at hd; simp at hd
  | cons x xs =>
    have hx : isWordChar x = false := hhead x (by simp)
    rw [wrapRuns_cons_not_word hx] at hd
    simp only [List.head?_cons, Option.some.injEq] at hd
    subst hd
    exact ⟨hx, (cleanChar_ne (cleanText_cons hclean).1).2.1⟩

theorem subWordGo_fire {w tail pre : List Char}
    (hwall : w.all isWordChar = true) (hw : w ≠ [])
    (hpre : preOK pre)
    (htail : ∀ d, tail.head? = some d → isWordChar d = false ∧ d ≠ rbrace) :
    subWordGo w pre (w ++ tail)
      = braceOpen ++ w ++ braceClose ++ subWordGo w (w.reverse ++ pre) tail := by
  have hm : matchesAt w pre (w ++ tail) = true :=
    matchesAt_run_true hwall hw hpre htail
  obtain ⟨w0, wt, rfl⟩ : ∃ w0 wt, w = w0 :: wt := by
    cases w with
    | nil => exact absurd rfl hw
    | cons a as => exact ⟨a, as, rfl⟩
  rw [List.cons_append] at hm ⊢
  rw [subWordGo_cons, if_pos hm]
  have hdrop : (w0 :: (wt ++ tail)).drop (w0 :: wt).length = tail := by
    rw [← List.cons_append]
    exact List.drop_left _ tail
  rw [hdrop]

theorem subWordGo_wrapRuns : ∀ (t : List Char) (S : List (List Char)) (pre w : List Char),
    cleanText t = true → w ≠ [] → w.all isWordChar = true →
    (∀ d, t.head? = some d → isWordChar d = true → preOK pre) →
    subWordGo w pre (wrapRuns S t) = wrapRuns (w :: S) t
  | [], S, pre, w, _, _, _, _ => by
    rw [wrapRuns_nil, wrapRuns_nil, subWordGo_nil]
  | c :: cs, S, pre, w, hct, hw, hwall, hpre => by
    obtain ⟨hcc, hccs⟩ := cleanText_cons hct
    by_cases hc : isWordChar c = true
    case neg =>
      have hc' : isWordChar c = false := by simpa using hc
      have hpre' : ∀ d, cs.head? = some d → isWordChar d = true → preOK (c :: pre) := by
        intro d _ _
        simp only [preOK, List.head?_cons]
        exact ⟨hc', (cleanChar_ne hcc).1⟩
      rw [wrapRuns_cons_not_word hc', wrapRuns_cons_not_word hc',
        subWordGo_not_word hw hwall hc',
        subWordGo_wrapRuns cs S (c :: pre) w hccs hw hwall hpre']
    case pos =>
      have hr_all : (c :: cs.takeWhile isWordChar).all isWordChar = true := by
        simp [List.all_cons, hc]
      have hr_ne : (c :: cs.takeWhile isWordChar) ≠ [] := by simp
      have hrest_clean : cleanText (cs.dropWhile isWordChar) = true :=
        cleanText_sublist (List.dropWhile_sublist _) hccs
      have hrest_head : ∀ d, (cs.dropWhile isWordChar).head? = some d →
          isWordChar d = false := by
        intro d hd
        have hnot := List.head?_dropWhile_not isWordChar cs
        rw [hd] at hnot
        exact hnot
      have hpre0 : preOK pre := hpre c (by simp) hc
      have hnw : ∀ d, (wrapRuns S (cs.dropWhile isWordChar)).head? = some d →
          isWordChar d = false ∧ d ≠ rbrace :=
        wrapRuns_head_not_word hrest_clean hrest_head
      have hpre_vac : ∀ (q : List Char) (d : Char),
          (cs.dropWhile isWordChar).head? = some d → isWordChar d = true → preOK q := by
        intro q d hd hdw
        rw [hrest_head d hd] at hdw
        exact absurd hdw (by decide)
      have hrec : ∀ (q : List Char),
          subWordGo w q (wrapRuns S (cs.dropWhile isWordChar))
            = wrapRuns (w :: S) (cs.dropWhile isWordChar) :=
        fun q => subWordGo_wrapRuns (cs.dropWhile isWordChar) S q w hrest_clean hw
          hwall (hpre_vac q)
      by_cases hmem : S.contains (c :: cs.takeWhile isWordChar) = true
      case pos =>
        have hmem2 : (w :: S).contains (c :: cs.takeWhile isWordChar) = true := by
          simp only [List.contains_cons, hmem, Bool.or_true]
        rw [wrapRuns_cons_word_mem hc hmem, wrapRuns_cons_word_mem hc hmem2]
        have hshape : braceOpen ++ (c :: cs.takeWhile isWordChar) ++ braceClose
            ++ wrapRuns S (cs.dropWhile isWordChar)
            = lbrace :: lbrace :: lbrace :: ((c :: cs.takeWhile isWordChar)
              ++ (rbrace :: rbrace :: rbrace :: wrapRuns S (cs.dropWhile isWordChar))) := by
          simp [braceOpen, braceClose]
        rw [hshape,
          subWordGo_not_word hw hwall isWordChar_lbrace,
          subWordGo_not_word hw hwall isWordChar_lbrace,
          subWordGo_not_word hw hwall isWordChar_lbrace,
          subWordGo_skip_run hwall hw hr_all hr_ne
            (by
              intro d hd
              simp only [List.head?_cons, Option.some.injEq] at hd
              rw [← hd]
              exact isWordChar_rbrace)
            (fun _ => Or.inl (by simp [braceOpen, List.isPrefixOf_cons₂])),
          subWordGo_not_word hw hwall isWordChar_rbrace,
          subWordGo_not_word hw hwall isWordChar_rbrace,
          subWordGo_not_word hw hwall isWordChar_rbrace,
          hrec _]
        simp [braceOpen, braceClose]
      case neg =>
        have hmem' : S.contains (c :: cs.takeWhile isWordChar) = false := by
          simpa using hmem
        by_cases hwr : w = c :: cs.takeWhile isWordChar
        case pos =>
          have hmem2 : (w :: S).contains (c :: cs.takeWhile isWordChar) = true := by
            rw [← hwr]
            simp
          rw [wrapRuns_cons_word_not_mem hc hmem', wrapRuns_cons_word_mem hc hmem2,
            ← hwr, subWordGo_fire hwall hw hpre0 hnw, hrec _, hwr]
        case neg =>
          have hmem2 : (w :: S).contains (c :: cs.takeWhile isWordChar) = false := by
            simp only [List.contains_cons, Bool.or_eq_false_iff]
            constructor
            · simp only [beq_eq_false_iff_ne, ne_eq]
              exact fun he => hwr he.symm
            · exact hmem'
          rw [wrapRuns_cons_word_not_mem hc hmem', wrapRuns_cons_word_not_mem hc hmem2,
            subWordGo_skip_run hwall hw hr_all hr_ne
              (fun d hd => (hnw d hd).1)
              (fun heq => absurd heq hwr),
            hrec _]
termination_by t => t.length
decreasing_by
  all_goals simp only [List.length_cons]
  all_goals first
    | exact Nat.lt_succ_self _
    | exact Nat.lt_succ_of_le (List.dropWhile_sublist _).length_le

theorem wrapRuns_nil_left : ∀ (t : List Char), wrapRuns [] t = t
  | [] => wrapRuns_nil []
  | c :: cs => by
    by_cases hc : isWordChar c = true
    · rw [wrapRuns_cons_word_not_mem hc (by simp),
        wrapRuns_nil_left (cs.dropWhile isWordChar), List.cons_append,
        List.takeWhile_append_dropWhile]
    · have hc' : isWordChar c = false := by simpa using hc
      rw [wrapRuns_cons_not_word hc', wrapRuns_nil_left cs]
termination_by t => t.length
decreasing_by
  all_goals simp only [List.length_cons]
  all_goals first
    | exact Nat.lt_succ_self _
    | exact Nat.lt_succ_of_le (List.dropWhile_sublist _).length_le

theorem wrapRuns_congr : ∀ (t : List Char) {S T : List (List Char)},
    (∀ r, S.contains r = T.contains r) → wrapRuns S t = wrapRuns T t
  | [], S, T, _ => by rw [wrapRuns_nil, wrapRuns_nil]
  | c :: cs, S, T, h => by
    by_cases hc : isWordChar c = true
    · by_cases hmem : S.contains (c :: cs.takeWhile isWordChar) = true
      · rw [wrapRuns_cons_word_mem hc hmem,
          wrapRuns_cons_word_mem hc (by rw [← h]; exact hmem),
          wrapRuns_congr (cs.dropWhile isWordChar) h]
      · have hmem' : S.contains (c :: cs.takeWhile isWordChar) = false := by
          simpa using hmem
        rw [wrapRuns_cons_word_not_mem hc hmem',
          wrapRuns_cons_word_not_mem hc (by rw [← h]; exact hmem'),
          wrapRuns_congr (cs.dropWhile isWordChar) h]
    · have hc' : isWordChar c = false := by simpa using hc
      rw [wrapRuns_cons_not_word hc', wrapRuns_cons_not_word hc',
        wrapRuns_congr cs h]
termination_by t => t.length
decreasing_by
  all_goals simp only [List.length_cons]
  all_goals first
    | exact Nat.lt_succ_self _
    | exact Nat.lt_succ_of_le (List.dropWhile_sublist _).length_le

theorem findClose_run : ∀ (r z : List Char), r.all isWordChar = true →
    findClose (r ++ (rbrace :: rbrace :: rbrace :: z)) = some (r, z)
  | [], z, _ => by
    rw [List.nil_append, findClose]
    have hp : braceClose.isPrefixOf (rbrace :: rbrace :: rbrace :: z) = true := by
      simp [braceClose, List.isPrefixOf_cons₂]
    rw [if_pos hp]
    simp
  | x :: xs, z, h => by
    have hx : isWordChar x = true := List.all_eq_true.mp h x (List.mem_cons_self x xs)
    have hxr : x ≠ rbrace := by
      intro he
      rw [he, isWordChar_rbrace] at hx
      exact absurd hx (by decide)
    have hxn : x ≠ '\n' := by
      intro he
      rw [he] at hx
      exact absurd hx (by decide)
    have hxs : xs.all isWordChar = true := by
      rw [List.all_eq_true]
      intro a ha
      exact List.all_eq_true.mp h a (List.mem_cons_of_mem x ha)
    rw [List.cons_append, findClose]
    have h1 : braceClose.isPrefixOf (x :: (xs ++ (rbrace :: rbrace :: rbrace :: z))) = false := by
      have hne : (rbrace == x) = false := by
        simp only [beq_eq_false_iff_ne, ne_eq]
        exact fun he => hxr he.symm
      simp [braceClose, List.isPrefixOf_cons₂, hne]
    rw [if_neg (by simp [h1]), if_neg hxn, findClose_run xs z hxs]
    simp

theorem unwrapGo_skip : ∀ (xs z : List Char), (∀ x ∈ xs, x ≠ lbrace) →
    unwrapGo (xs ++ z) = xs ++ unwrapGo z
  | [], z, _ => by simp
  | x :: xt, z, h => by
    have hx : x ≠ lbrace := h x (List.mem_cons_self x xt)
    rw [List.cons_append, unwrapGo_cons]
    have h1 : braceOpen.isPrefixOf (x :: (xt ++ z)) = false := by
      have hne : (lbrace == x) = false := by
        simp only [beq_eq_false_iff_ne, ne_eq]
        exact fun he => hx he.symm
      simp [braceOpen, List.isPrefixOf_cons₂, hne]
    rw [if_neg (by simp [h1]), unwrapGo_skip xt z (fun a ha => h a (List.mem_cons_of_mem x ha))]
    simp

theorem unwrapGo_wrapRuns : ∀ (t : List Char) (S : List (List Char)),
    cleanText t = true → unwrapGo (wrapRuns S t) = t
  | [], S, _ => by rw [wrapRuns_nil, unwrapGo_nil]
  | c :: cs, S, hct => by
    obtain ⟨hcc, hccs⟩ := cleanText_cons hct
    by_cases hc : isWordChar c = true
    case pos =>
      have hr_all : (c :: cs.takeWhile isWordChar).all isWordChar = true := by
        simp [List.all_cons, hc]
      have hrest_clean : cleanText (cs.dropWhile isWordChar) = true :=
        cleanText_sublist (List.dropWhile_sublist _) hccs
      by_cases hmem : S.contains (c :: cs.takeWhile isWordChar) = true
      case pos =>
        rw [wrapRuns_cons_word_mem hc hmem]
        have hshape : braceOpen ++ (c :: cs.takeWhile isWordChar) ++ braceClose
            ++ wrapRuns S (cs.dropWhile isWordChar)
            = lbrace :: (lbrace :: lbrace :: ((c :: cs.takeWhile isWordChar)
              ++ (rbrace :: rbrace :: rbrace :: wrapRuns S (cs.dropWhile isWordChar)))) := by
          simp [braceOpen, braceClose]
        rw [hshape, unwrapGo_cons]
        have hfc := findClose_run (c :: cs.takeWhile isWordChar)
          (wrapRuns S (cs.dropWhile isWordChar)) hr_all
        rw [if_pos (show braceOpen.isPrefixOf (lbrace :: (lbrace :: lbrace
            :: ((c :: cs.takeWhile isWordChar)
              ++ (rbrace :: rbrace :: rbrace :: wrapRuns S (cs.dropWhile isWordChar))))) = true
          by simp [braceOpen, List.isPrefixOf_cons₂])]
        split
        case h_1 mr heq =>
          rw [show List.drop 3 (lbrace :: (lbrace :: lbrace :: ((c :: cs.takeWhile isWordChar)
              ++ (rbrace :: rbrace :: rbrace :: wrapRuns S (cs.dropWhile isWordChar)))))
            = (c :: cs.takeWhile isWordChar)
              ++ (rbrace :: rbrace :: rbrace :: wrapRuns S (cs.dropWhile isWordChar))
            from rfl, hfc] at heq
          have hmr := Option.some.inj heq
          rw [← hmr]
          rw [unwrapGo_wrapRuns (cs.dropWhile isWordChar) S hrest_clean, List.cons_append,
            List.takeWhile_append_dropWhile]
        case h_2 heq =>
          rw [show List.drop 3 (lbrace :: (lbrace :: lbrace :: ((c :: cs.takeWhile isWordChar)
              ++ (rbrace :: rbrace :: rbrace :: wrapRuns S (cs.dropWhile isWordChar)))))
            = (c :: cs.takeWhile isWordChar)
              ++ (rbrace :: rbrace :: rbrace :: wrapRuns S (cs.dropWhile isWordChar))
            from rfl, hfc] at heq
          exact absurd heq (by simp)
      case neg =>
        have hmem' : S.contains (c :: cs.takeWhile isWordChar) = false := by
          simpa using hmem
        rw [wrapRuns_cons_word_not_mem hc hmem',
          unwrapGo_skip (c :: cs.takeWhile isWordChar) _ (by
            intro x hx
            intro he
            have hxw : isWordChar x = true := List.all_eq_true.mp hr_all x hx
            rw [he, isWordChar_lbrace] at hxw
            exact absurd hxw (by decide)),
          unwrapGo_wrapRuns (cs.dropWhile isWordChar) S hrest_clean, List.cons_append,
          List.takeWhile_append_dropWhile]
    case neg =>
      have hc' : isWordChar c = false := by simpa using hc
      have hcl : c ≠ lbrace := (cleanChar_ne hcc).1
      rw [wrapRuns_cons_not_word hc', unwrapGo_cons]
      have h1 : braceOpen.isPrefixOf (c :: wrapRuns S cs) = false := by
        have hne : (lbrace == c) = false := by
          simp only [beq_eq_false_iff_ne, ne_eq]
          exact fun he => hcl he.symm
        simp [braceOpen, List.isPrefixOf_cons₂, hne]
      rw [if_neg (by simp [h1]), unwrapGo_wrapRuns cs S hccs]
termination_by t => t.length
decreasing_by
  all_goals simp only [List.length_cons]
  all_goals first
    | exact Nat.lt_succ_self _
    | exact Nat.lt_succ_of_le (List.dropWhile_sublist _).length_le

theorem pyFindTokens_nil : pyFindTokens [] = [] := rfl

theorem pyFindTokens_cons_word {c : Char} {cs : List Char} (hc : isWordChar c = true) :
    pyFindTokens (c :: cs)
      = (c :: cs.takeWhile isWordChar) :: pyFindTokens (cs.dropWhile isWordChar) := by
  rw [pyFindTokens, pyFindTokens, List.length_cons, pyFindTokensF, if_pos hc,
    pyFindTokensF_eq_len cs.length (cs.dropWhile isWordChar)
      (List.dropWhile_sublist _).length_le]

theorem pyFindTokens_cons_skip {c : Char} {cs : List Char}
    (hc : isWordChar c = false) (hd : c ≠ '-') :
    pyFindTokens (c :: cs) = pyFindTokens cs := by
  rw [pyFindTokens, pyFindTokens, List.length_cons, pyFindTokensF, if_neg (by simp [hc]),
    if_neg hd, pyFindTokensF_eq_len cs.length cs (Nat.le_refl _)]

theorem wrapRuns_nonword_head {S : List (List Char)} {rest : List Char}
    (hhead : ∀ d, rest.head? = some d → isWordChar d = false) :
    (wrapRuns S rest).takeWhile isWordChar = []
      ∧ (wrapRuns S rest).dropWhile isWordChar = wrapRuns S rest := by
  cases rest with
  | nil => rw [wrapRuns_nil]; exact ⟨rfl, rfl⟩
  | cons d ds =>
    have hd : isWordChar d = false := hhead d (by simp)
    rw [wrapRuns_cons_not_word hd]
    constructor
    · rw [List.takeWhile_cons, if_neg (by simp [hd])]
    · rw [List.dropWhile_cons, if_neg (by simp [hd])]

theorem pyFindTokens_wrapRuns : ∀ (t : List Char) (S : List (List Char)),
    cleanText t = true → pyFindTokens (wrapRuns S t) = pyFindTokens t
  | [], S, _ => by rw [wrapRuns_nil]
  | c :: cs, S, hct => by
    obtain ⟨hcc, hccs⟩ := cleanText_cons hct
    have hlb1 : isWordChar lbrace = false := isWordChar_lbrace
    have hlb2 : lbrace ≠ '-' := by decide
    have hrb1 : isWordChar rbrace = false := isWordChar_rbrace
    have hrb2 : rbrace ≠ '-' := by decide
    by_cases hc : isWordChar c = true
    case pos =>
      have hrt_all : ∀ x ∈ cs.takeWhile isWordChar, isWordChar x = true := by
        intro x hx
        exact List.mem_takeWhile_imp hx
      have hrest_head : ∀ d, (cs.dropWhile isWordChar).head? = some d →
          isWordChar d = false := by
        intro d hd
        have hnot := List.head?_dropWhile_not isWordChar cs
        rw [hd] at hnot
        exact hnot
      have hrest_clean : cleanText (cs.dropWhile isWordChar) = true :=
        cleanText_sublist (List.dropWhile_sublist _) hccs
      obtain ⟨htw, hdw⟩ := wrapRuns_nonword_head (S := S) hrest_head
      by_cases hmem : S.contains (c :: cs.takeWhile isWordChar) = true
      case pos =>
        rw [wrapRuns_cons_word_mem hc hmem]
        have hshape : braceOpen ++ (c :: cs.takeWhile isWordChar) ++ braceClose
            ++ wrapRuns S (cs.dropWhile isWordChar)
            = lbrace :: (lbrace :: (lbrace :: (c :: (cs.takeWhile isWordChar
              ++ (rbrace :: rbrace :: rbrace :: wrapRuns S (cs.dropWhile isWordChar))))))
            := by
          simp [braceOpen, braceClose]
        rw [hshape, pyFindTokens_cons_skip hlb1 hlb2, pyFindTokens_cons_skip hlb1 hlb2,
          pyFindTokens_cons_skip hlb1 hlb2, pyFindTokens_cons_word hc,
          takeWhile_append_all hrt_all, dropWhile_append_all hrt_all,
          List.takeWhile_cons, if_neg (by simp [hrb1]),
          List.dropWhile_cons, if_neg (by simp [hrb1]),
          pyFindTokens_cons_skip hrb1 hrb2, pyFindTokens_cons_skip hrb1 hrb2,
          pyFindTokens_cons_skip hrb1 hrb2,
          pyFindTokens_wrapRuns (cs.dropWhile isWordChar) S hrest_clean,
          pyFindTokens_cons_word hc, List.append_nil]
      case neg =>
        have hmem' : S.contains (c :: cs.takeWhile isWordChar) = false := by
          simpa using hmem
        rw [wrapRuns_cons_word_not_mem hc hmem', List.cons_append,
          pyFindTokens_cons_word hc,
          takeWhile_append_all hrt_all, dropWhile_append_all hrt_all, htw, hdw,
          pyFindTokens_wrapRuns (cs.dropWhile isWordChar) S hrest_clean,
          pyFindTokens_cons_word hc, List.append_nil]
    case neg =>
      have hc' : isWordChar c = false := by simpa using hc
      have hcd : c ≠ '-' := (cleanChar_ne hcc).2.2
      rw [wrapRuns_cons_not_word hc', pyFindTokens_cons_skip hc' hcd,
        pyFindTokens_cons_skip hc' hcd, pyFindTokens_wrapRuns cs S hccs]
termination_by t => t.length
decreasing_by
  all_goals simp only [List.length_cons]
  all_goals first
    | exact Nat.lt_succ_self _
    | exact Nat.lt_succ_of_le (List.dropWhile_sublist _).length_le

theorem pyFindTokens_clean : ∀ (t : List Char), cleanText t = true →
    ∀ tok ∈ pyFindTokens t, tok ≠ [] ∧ tok.all isWordChar = true
  | [], _, tok, htok => by rw [pyFindTokens_nil] at htok; exact absurd htok (by simp)
  | c :: cs, hct, tok, htok => by
    obtain ⟨hcc, hccs⟩ := cleanText_cons hct
    by_cases hc : isWordChar c = true
    case pos =>
      rw [pyFindTokens_cons_word hc] at htok
      rcases List.mem_cons.mp htok with h | h
      · subst h
        refine ⟨by simp, ?_⟩
        simp [List.all_cons, hc]
      · exact pyFindTokens_clean (cs.dropWhile isWordChar)
          (cleanText_sublist (List.dropWhile_sublist _) hccs) tok h
    case neg =>
      have hc' : isWordChar c = false := by simpa using hc
      rw [pyFindTokens_cons_skip hc' (cleanChar_ne hcc).2.2] at htok
      exact pyFindTokens_clean cs hccs tok htok
termination_by t => t.length
decreasing_by
  all_goals simp only [List.length_cons]
  all_goals first
    | exact Nat.lt_succ_self _
    | exact Nat.lt_succ_of_le (List.dropWhile_sublist _).length_le

/-- The wrapped-words accumulator of `wrap_terms`' inner loop, in
isolation: it evolves independently of the text being edited. -/
def accWords (ratio : List Char → List Char → Nat) (forms : List (List Char))
    (W : List (List Char)) (ws : List (List Char)) : List (List Char) :=
  ws.foldl (fun W w =>
    if (forms.any (fun f => matchWF ratio w f)) && !W.contains w then w :: W else W) W

/-- The wrapped-words accumulator of `wrap_terms`' outer loop. -/
def accTerms (lexforms : List Char → List (List Char))
    (ratio : List Char → List Char → Nat) (words : List (List Char))
    (W : List (List Char)) (terms : List (List Char)) : List (List Char) :=
  terms.foldl (fun W term =>
    if term.isEmpty then W else accWords ratio (termForms lexforms term) W words) W

theorem foldWords_wrapRuns (ratio : List Char → List Char → Nat)
    (forms : List (List Char)) :
    ∀ (ws : List (List Char)) (W S0 : List (List Char)) (t : List Char),
    cleanText t = true → (∀ w ∈ ws, w ≠ [] ∧ w.all isWordChar = true) →
    ws.foldl (wrapFoldWord ratio forms) (wrapRuns (W ++ S0) t, W)
      = (wrapRuns (accWords ratio forms W ws ++ S0) t, accWords ratio forms W ws) := by
  intro ws
  induction ws with
  | nil => intro W S0 t _ _; simp [accWords]
  | cons w ws ih =>
    intro W S0 t hct hws
    obtain ⟨hwne, hwall⟩ := hws w (List.mem_cons_self w ws)
    have hws' : ∀ x ∈ ws, x ≠ [] ∧ x.all isWordChar = true :=
      fun x hx => hws x (List.mem_cons_of_mem w hx)
    rw [List.foldl_cons]
    have hacc : accWords ratio forms W (w :: ws)
        = accWords ratio forms
          (if (forms.any (fun f => matchWF ratio w f)) && !W.contains w then w :: W else W)
          ws := by
      rw [accWords, List.foldl_cons]
      rfl
    have hpat : subWordPat w (wrapRuns (W ++ S0) t) = wrapRuns (w :: (W ++ S0)) t := by
      rw [subWordPat, if_neg (by simpa using hwne)]
      exact subWordGo_wrapRuns t (W ++ S0) [] w hct hwne hwall
        (fun d _ _ => trivial)
    by_cases hsel : ((forms.any (fun f => matchWF ratio w f)) && !W.contains w) = true
    · have hstep : wrapFoldWord ratio forms (wrapRuns (W ++ S0) t, W) w
          = (wrapRuns ((w :: W) ++ S0) t, w :: W) := by
        rw [wrapFoldWord, if_pos hsel, hpat]
        rfl
      rw [hstep, ih (w :: W) S0 t hct hws', hacc, if_pos hsel]
    · have hstep : wrapFoldWord ratio forms (wrapRuns (W ++ S0) t, W) w
          = (wrapRuns (W ++ S0) t, W) := by
        rw [wrapFoldWord, if_neg hsel]
      rw [hstep, ih W S0 t hct hws', hacc, if_neg hsel]

theorem foldTerms_wrapRuns (lexforms : List Char → List (List Char))
    (ratio : List Char → List Char → Nat) :
    ∀ (terms : List (List Char)) (words W S0 : List (List Char)) (t : List Char),
    cleanText t = true → (∀ w ∈ words, w ≠ [] ∧ w.all isWordChar = true) →
    terms.foldl (wrapFoldTerm lexforms ratio words) (wrapRuns (W ++ S0) t, W)
      = (wrapRuns (accTerms lexforms ratio words W terms ++ S0) t,
         accTerms lexforms ratio words W terms) := by
  intro terms
  induction terms with
  | nil => intro words W S0 t _ _; simp [accTerms]
  | cons term terms ih =>
    intro words W S0 t hct hws
    rw [List.foldl_cons]
    have hacc : accTerms lexforms ratio words W (term :: terms)
        = accTerms lexforms ratio words
          (if term.isEmpty then W
           else accWords ratio (termForms lexforms term) W words) terms := by
      rw [accTerms, List.foldl_cons]
      rfl
    by_cases hemp : term.isEmpty = true
    · rw [wrapFoldTerm, if_pos hemp, ih words W S0 t hct hws, hacc, if_pos hemp]
    · rw [wrapFoldTerm, if_neg hemp,
        foldWords_wrapRuns ratio (termForms lexforms term) words W S0 t hct hws,
        ih words _ S0 t hct hws, hacc, if_neg hemp]

theorem wrap_terms_wrapRuns (lexforms : List Char → List (List Char))
    (ratio : List Char → List Char → Nat) (t : List Char) (terms : List (List Char))
    (hct : cleanText t = true) :
    wrap_terms lexforms ratio t terms
      = wrapRuns (accTerms lexforms ratio (pyFindTokens t) [] (pySortLenDesc terms)) t := by
  rw [wrap_terms]
  have h0 : (t, ([] : List (List Char)))
      = (wrapRuns (([] : List (List Char)) ++ []) t, ([] : List (List Char))) := by
    rw [List.nil_append, wrapRuns_nil_left]
  rw [h0, foldTerms_wrapRuns lexforms ratio (pySortLenDesc terms) (pyFindTokens t) [] [] t
    hct (pyFindTokens_clean t hct), List.append_nil]

theorem contains_append_self {A : List (List Char)} {r : List Char} :
    (A ++ A).contains r = A.contains r := by
  simp [List.contains_eq_any_beq, List.any_append]

/-- C1 (counterexample): the round-trip law fails with no precondition:
for the text consisting of a word already enclosed in the delimiter pair
and an empty term list, `wrap_terms` returns the text unchanged but
`unwrap_terms` strips the delimiters, so the round trip loses them. -/
theorem c1_round_trip_counterexample :
    unwrap_terms (wrap_terms noForms zeroRatio
        [lbrace, lbrace, lbrace, 'a', rbrace, rbrace, rbrace] [])
      ≠ [lbrace, lbrace, lbrace, 'a', rbrace, rbrace, rbrace] := by
  decide

/-- C1 (amended): for every text containing neither a curly brace nor a
hyphen, and every term list and every instantiation of the morphological
and fuzzy collaborators, unwrapping the wrapped text returns the original
text exactly. -/
theorem c1_round_trip_amended (lexforms : List Char → List (List Char))
    (ratio : List Char → List Char → Nat) (t : List Char)
    (terms : List (List Char)) (hct : cleanText t = true) :
    unwrap_terms (wrap_terms lexforms ratio t terms) = t := by
  rw [wrap_terms_wrapRuns lexforms ratio t terms hct]
  exact unwrapGo_wrapRuns t _ hct

/-- C1 (witness): the amended round-trip law at a concrete input on which
wrapping actually wraps a term. -/
theorem c1_round_trip_witness :
    unwrap_terms (wrap_terms noForms zeroRatio (("hi there").toList)
      [("hi").toList]) = ("hi there").toList :=
  c1_round_trip_amended noForms zeroRatio (("hi there").toList)
    [("hi").toList] (by decide)

/-- C2 (counterexample): idempotence fails with no precondition: on
`"x-x q-r"` with terms `["x", "-"]` the first pass wraps both `x`
occurrences; tokenizing the wrapped text then splits the hyphenated token
at the inserted braces, yielding a fresh `-` token that the second pass
wraps inside `q-r`, so the second application changes the text again. -/
theorem c2_idempotent_counterexample :
    wrap_terms noForms zeroRatio
        (wrap_terms noForms zeroRatio (("x-x q-r").toList)
          [("x").toList, ("-").toList])
        [("x").toList, ("-").toList]
      ≠ wrap_terms noForms zeroRatio (("x-x q-r").toList)
          [("x").toList, ("-").toList] := by
  decide

/-- C2 (amended): for every text containing neither a curly brace nor a
hyphen, and every term list and collaborators, `wrap_terms` is
idempotent: wrapping an already wrapped text changes nothing. -/
theorem c2_idempotent_amended (lexforms : List Char → List (List Char))
    (ratio : List Char → List Char → Nat) (t : List Char)
    (terms : List (List Char)) (hct : cleanText t = true) :
    wrap_terms lexforms ratio (wrap_terms lexforms ratio t terms) terms
      = wrap_terms lexforms ratio t terms := by
  rw [wrap_terms_wrapRuns lexforms ratio t terms hct, wrap_terms,
    pyFindTokens_wrapRuns t _ hct]
  have h0 : (wrapRuns (accTerms lexforms ratio (pyFindTokens t) []
        (pySortLenDesc terms)) t, ([] : List (List Char)))
      = (wrapRuns (([] : List (List Char)) ++ accTerms lexforms ratio (pyFindTokens t) []
        (pySortLenDesc terms)) t, ([] : List (List Char))) := by
    rw [List.nil_append]
  rw [h0, foldTerms_wrapRuns lexforms ratio (pySortLenDesc terms) (pyFindTokens t) []
    (accTerms lexforms ratio (pyFindTokens t) [] (pySortLenDesc terms)) t hct
    (pyFindTokens_clean t hct)]
  exact wrapRuns_congr t (fun r => contains_append_self)

/-- C2 (witness): the amended idempotence law at a concrete input on
which wrapping actually wraps a term. -/
theorem c2_idempotent_witness :
    wrap_terms noForms zeroRatio
        (wrap_terms noForms zeroRatio (("hi there").toList) [("hi").toList])
        [("hi").toList]
      = wrap_terms noForms zeroRatio (("hi there").toList) [("hi").toList] :=
  c2_idempotent_amended noForms zeroRatio (("hi there").toList)
    [("hi").toList] (by decide)

/-- C4: when the oracle transport call raises, `analyze_and_correct`
returns the generic failure marker paired with the input sentence
unchanged; the embedding is a total function, so the exception is never
propagated — the `except` branch of src/ai.py lines 96-98 is the
`Except.error` case. -/
theorem c4_transport_failure (e : Unit) (s : List Char) :
    analyze_and_correct (Except.error e) s = (failMarker, s) := rfl

theorem findAfterKey_some_inf : ∀ {key l r : List Char},
    findAfterKey key l = some r → key <:+: l := by
  intro key l
  induction l with
  | nil =>
    intro r h
    rw [findAfterKey] at h
    by_cases hk : key.isEmpty = true
    · have hkey : key = [] := by
        cases key with
        | nil => rfl
        | cons a as => simp at hk
      subst hkey
      exact List.nil_infix
    · rw [if_neg hk] at h
      exact absurd h (by simp)
  | cons c cs ih =>
    intro r h
    rw [findAfterKey] at h
    by_cases hp : key.isPrefixOf (c :: cs) = true
    · exact (List.isPrefixOf_iff_prefix.mp hp).isInfix
    · rw [if_neg hp] at h
      exact List.infix_cons_iff.mpr (Or.inr (ih h))

theorem findAfterKey_ne_none_of_inf : ∀ {key l : List Char},
    key <:+: l → findAfterKey key l ≠ none := by
  intro key l
  induction l with
  | nil =>
    intro h
    have hk : key = [] := List.eq_nil_of_infix_nil h
    rw [hk, findAfterKey]
    simp
  | cons c cs ih =>
    intro h
    rw [findAfterKey]
    by_cases hp : key.isPrefixOf (c :: cs) = true
    · rw [if_pos hp]
      simp
    · rw [if_neg hp]
      have hcs : key <:+: cs := by
        rcases List.infix_cons_iff.mp h with hpre | hinf
        · exact absurd (List.isPrefixOf_iff_prefix.mpr hpre) (by simpa using hp)
        · exact hinf
      exact ih hcs

theorem findAfterKey_none_inf {key l l' : List Char}
    (h : findAfterKey key l = none) (hsub : l' <:+: l) :
    findAfterKey key l' = none := by
  cases hfk : findAfterKey key l' with
  | none => rfl
  | some r =>
    exact absurd h
      (findAfterKey_ne_none_of_inf ((findAfterKey_some_inf hfk).trans hsub))

theorem dropTrail_pref (p : Char → Bool) (m : List Char) : dropTrail p m <+: m := by
  rw [dropTrail]
  have h2 := List.reverse_prefix.mpr (List.dropWhile_suffix (l := m.reverse) p)
  rwa [List.reverse_reverse] at h2

theorem pyStripBy_inf (p : Char → Bool) (l : List Char) : pyStripBy p l <:+: l := by
  rw [pyStripBy]
  exact (dropTrail_pref p (l.dropWhile p)).isInfix.trans
    (List.dropWhile_suffix p).isInfix

/-- C5 (counterexample): with a response lacking the corrected-sentence
field and the sentence `*x*`, the returned corrected value is `x` — the
fallback strips surrounding whitespace and asterisks, so the input is not
returned unchanged. -/
theorem c5_fallback_counterexample :
    (analyze_and_correct (Except.ok []) (("*x*").toList)).2 ≠ ("*x*").toList := by
  decide

/-- C5 (amended): for every response in which the corrected-sentence key
does not occur and every sentence s, `analyze_and_correct` returns as the
corrected value the input sentence stripped of surrounding whitespace and
then of surrounding `*` characters (so s itself exactly when s is already
trimmed with no edge asterisks). -/
theorem c5_fallback_amended (raw s : List Char)
    (h : findAfterKey corrKey raw = none) :
    (analyze_and_correct (Except.ok raw) s).2
      = pyStripBy (fun c => c = '*') (pyStrip s) := by
  have h2 : findAfterKey corrKey (pyStrip raw) = none :=
    findAfterKey_none_inf h (pyStripBy_inf isPySpace raw)
  rw [pyStrip] at h2
  simp [analyze_and_correct, corrGroup, pyStrip, h2]

/-- C5 (witness): the amended fallback at a concrete "no errors"
response. -/
theorem c5_fallback_witness :
    (analyze_and_correct (Except.ok (("Ошибок нет").toList)) (("ok").toList)).2
      = pyStripBy (fun c => c = '*') (pyStrip (("ok").toList)) :=
  c5_fallback_amended (("Ошибок нет").toList) (("ok").toList) (by decide)

theorem head?_pyStripBy_not (p : Char → Bool) (l : List Char) :
    ∀ c, (pyStripBy p l).head? = some c → p c = false := by
  intro c hc
  rw [pyStripBy] at hc
  obtain ⟨t, ht⟩ := dropTrail_pref p (l.dropWhile p)
  cases hr : dropTrail p (l.dropWhile p) with
  | nil => rw [hr] at hc; simp at hc
  | cons x xs =>
    rw [hr] at hc ht
    simp only [List.head?_cons, Option.some.injEq] at hc
    subst hc
    have hhead := List.head?_dropWhile_not p l
    rw [← ht] at hhead
    simpa using hhead

theorem getLast?_dropTrail_not (p : Char → Bool) (m : List Char) :
    ∀ c, (dropTrail p m).getLast? = some c → p c = false := by
  intro c hc
  rw [dropTrail, List.getLast?_reverse] at hc
  have hhead := List.head?_dropWhile_not p m.reverse
  rw [hc] at hhead
  exact hhead

theorem dropWhile_of_head_not {p : Char → Bool} {l : List Char}
    (h : ∀ c, l.head? = some c → p c = false) : l.dropWhile p = l := by
  cases l with
  | nil => rfl
  | cons x xs =>
    rw [List.dropWhile_cons, if_neg (by simp [h x rfl])]

theorem dropTrail_of_getLast_not {p : Char → Bool} {m : List Char}
    (h : ∀ c, m.getLast? = some c → p c = false) : dropTrail p m = m := by
  rw [dropTrail, dropWhile_of_head_not (by
    intro c hc
    rw [List.head?_reverse] at hc
    exact h c hc), List.reverse_reverse]

theorem pyStripBy_idem (p : Char → Bool) (l : List Char) :
    pyStripBy p (pyStripBy p l) = pyStripBy p l := by
  have h1 : (pyStripBy p l).dropWhile p = pyStripBy p l :=
    dropWhile_of_head_not (head?_pyStripBy_not p l)
  have h2 : dropTrail p (pyStripBy p l) = pyStripBy p l :=
    dropTrail_of_getLast_not (by
      intro c hc
      rw [pyStripBy] at hc
      exact getLast?_dropTrail_not p (l.dropWhile p) c hc)
  rw [pyStripBy, h1, h2]

theorem filter_nsp_dropWhile (l : List Char) :
    (l.dropWhile isPySpace).filter (fun c => !isPySpace c)
      = l.filter (fun c => !isPySpace c) := by
  induction l with
  | nil => rfl
  | cons x xs ih =>
    rw [List.dropWhile_cons]
    by_cases hx : isPySpace x = true
    · rw [if_pos hx, ih, List.filter_cons, if_neg (by simp [hx])]
    · rw [if_neg hx]

theorem filter_nsp_dropTrail (m : List Char) :
    (dropTrail isPySpace m).filter (fun c => !isPySpace c)
      = m.filter (fun c => !isPySpace c) := by
  rw [dropTrail, List.filter_reverse, filter_nsp_dropWhile, ← List.filter_reverse,
    List.reverse_reverse]

theorem filter_nsp_pyStrip (l : List Char) :
    (pyStrip l).filter (fun c => !isPySpace c) = l.filter (fun c => !isPySpace c) := by
  rw [pyStrip, pyStripBy, filter_nsp_dropTrail, filter_nsp_dropWhile]

theorem splitGo_flatten_filter : ∀ (cs acc : List Char),
    ((splitGo acc cs).flatten).filter (fun c => !isPySpace c)
      = (acc.reverse ++ cs).filter (fun c => !isPySpace c)
  | [], acc => by
    rw [splitGo_nil]
    simp
  | c :: cs, acc => by
    rw [splitGo_cons]
    by_cases ht : isTermCh c = true
    · rw [if_pos ht, List.flatten_cons, List.filter_append,
        splitGo_flatten_filter (cs.dropWhile isPySpace) [], List.reverse_nil,
        List.nil_append, filter_nsp_dropWhile]
      simp only [List.reverse_cons, List.filter_append, List.append_assoc]
      rw [← List.filter_append, List.singleton_append]
    · rw [if_neg ht, splitGo_flatten_filter cs (c :: acc)]
      simp [List.filter_append]
termination_by cs acc => cs.length
decreasing_by
  all_goals simp only [List.length_cons]
  all_goals first
    | exact Nat.lt_succ_self _
    | exact Nat.lt_succ_of_le (List.dropWhile_sublist _).length_le

theorem stripF_flatten_filter : ∀ (L : List (List Char)),
    ((L.filterMap (fun p =>
        let s := pyStrip p
        if s.isEmpty then none else some s)).flatten).filter (fun c => !isPySpace c)
      = (L.flatten).filter (fun c => !isPySpace c) := by
  intro L
  induction L with
  | nil => rfl
  | cons pc L' ih =>
    by_cases he : (pyStrip pc).isEmpty = true
    · have hnil : pyStrip pc = [] := by
        cases hp : pyStrip pc with
        | nil => rfl
        | cons a as => rw [hp] at he; simp at he
      have hfe : pc.filter (fun c => !isPySpace c) = [] := by
        rw [← filter_nsp_pyStrip, hnil]
        rfl
      rw [List.filterMap_cons_none (by simp [he]), ih, List.flatten_cons,
        List.filter_append, hfe, List.nil_append]
    · have hfm : List.filterMap (fun p =>
            let s := pyStrip p
            if s.isEmpty then none else some s) (pc :: L')
          = pyStrip pc :: List.filterMap (fun p =>
            let s := pyStrip p
            if s.isEmpty then none else some s) L' :=
        List.filterMap_cons_some (by simp [he])
      rw [hfm, List.flatten_cons, List.flatten_cons, List.filter_append,
        List.filter_append, filter_nsp_pyStrip, ih]

/-- A sentence whose last character is one of the terminators. -/
def endsInTerminator (s : List Char) : Prop :=
  ∃ c, s.getLast? = some c ∧ isTermCh c = true

theorem isTermCh_not_space {c : Char} (h : isTermCh c = true) :
    isPySpace c = false := by
  simp only [isTermCh, Bool.or_eq_true, decide_eq_true_eq] at h
  rcases h with (h | h) | h <;> subst h <;> decide

theorem splitGo_ne_nil : ∀ (cs acc : List Char), splitGo acc cs ≠ []
  | [], acc => by rw [splitGo_nil]; simp
  | c :: cs, acc => by
    rw [splitGo_cons]
    by_cases ht : isTermCh c = true
    · rw [if_pos ht]; simp
    · rw [if_neg ht]
      exact splitGo_ne_nil cs (c :: acc)
termination_by cs acc => cs.length
decreasing_by
  simp only [List.length_cons]
  exact Nat.lt_succ_self _

theorem splitGo_dropLast_terminator : ∀ (cs acc : List Char),
    ∀ s ∈ (splitGo acc cs).dropLast, endsInTerminator s
  | [], acc => by
    rw [splitGo_nil]
    simp
  | c :: cs, acc => by
    rw [splitGo_cons]
    by_cases ht : isTermCh c = true
    · rw [if_pos ht]
      intro s hs
      rw [List.dropLast_cons_of_ne_nil (splitGo_ne_nil (cs.dropWhile isPySpace) [])] at hs
      rcases List.mem_cons.mp hs with h | h
      · subst h
        exact ⟨c, by simp, ht⟩
      · exact splitGo_dropLast_terminator (cs.dropWhile isPySpace) [] s h
    · rw [if_neg ht]
      exact splitGo_dropLast_terminator cs (c :: acc)
termination_by cs acc => cs.length
decreasing_by
  all_goals simp only [List.length_cons]
  all_goals first
    | exact Nat.lt_succ_self _
    | exact Nat.lt_succ_of_le (List.dropWhile_sublist _).length_le

theorem pyStrip_terminator {pc : List Char} (h : endsInTerminator pc) :
    endsInTerminator (pyStrip pc) ∧ (pyStrip pc).isEmpty = false := by
  obtain ⟨c, hlast, hterm⟩ := h
  have hcsp : isPySpace c = false := isTermCh_not_space hterm
  have hmne : pc.dropWhile isPySpace ≠ [] := by
    intro he
    have hall := List.dropWhile_eq_nil_iff.mp he
    have hcm : c ∈ pc := List.mem_of_getLast?_eq_some hlast
    have := hall c hcm
    rw [hcsp] at this
    exact absurd this (by decide)
  have hlast2 : (pc.dropWhile isPySpace).getLast? = some c := by
    have hsplit : pc.takeWhile isPySpace ++ pc.dropWhile isPySpace = pc :=
      List.takeWhile_append_dropWhile isPySpace pc
    have := @List.getLast?_append_of_ne_nil _ (pc.takeWhile isPySpace)
      (pc.dropWhile isPySpace) hmne
    rw [hsplit] at this
    rw [← this, hlast]
  have hdt : dropTrail isPySpace (pc.dropWhile isPySpace) = pc.dropWhile isPySpace :=
    dropTrail_of_getLast_not (by
      intro d hd
      rw [hlast2] at hd
      simp only [Option.some.injEq] at hd
      rw [← hd]
      exact hcsp)
  have hps : pyStrip pc = pc.dropWhile isPySpace := by
    rw [pyStrip, pyStripBy, hdt]
  constructor
  · exact ⟨c, by rw [hps, hlast2], hterm⟩
  · rw [hps]
    cases hm : pc.dropWhile isPySpace with
    | nil => exact absurd hm hmne
    | cons a as => rfl

theorem filterMap_strip_dropLast : ∀ (L : List (List Char)),
    (∀ s ∈ L.dropLast, endsInTerminator s) →
    ∀ s ∈ (L.filterMap (fun p =>
        let t := pyStrip p
        if t.isEmpty then none else some t)).dropLast, endsInTerminator s := by
  intro L
  induction L with
  | nil => intro _ s hs; simp at hs
  | cons pc L' ih =>
    intro hL s hs
    cases L' with
    | nil =>
      cases hM : List.filterMap (fun p =>
          let t := pyStrip p
          if t.isEmpty then none else some t) [pc] with
      | nil => rw [hM] at hs; simp at hs
      | cons b M =>
        have hlen := List.length_filterMap_le (fun p =>
          let t := pyStrip p
          if t.isEmpty then none else some t) [pc]
        rw [hM] at hlen
        have hM2 : M = [] := by
          simp only [List.length_cons, List.length_nil] at hlen
          have : M.length = 0 := by omega
          exact List.length_eq_zero.mp this
        subst hM2
        rw [hM] at hs
        simp at hs
    | cons q L'' =>
      have hE : endsInTerminator pc := hL pc (by
        rw [List.dropLast_cons_of_ne_nil (by simp)]
        simp)
      have hL' : ∀ x ∈ (q :: L'').dropLast, endsInTerminator x := by
        intro x hx
        refine hL x ?_
        rw [List.dropLast_cons_of_ne_nil (by simp)]
        exact List.mem_cons_of_mem pc hx
      by_cases he : (pyStrip pc).isEmpty = true
      · rw [List.filterMap_cons_none (by simp [he])] at hs
        exact ih hL' s hs
      · have hfm : List.filterMap (fun p =>
              let t := pyStrip p
              if t.isEmpty then none else some t) (pc :: q :: L'')
            = pyStrip pc :: List.filterMap (fun p =>
              let t := pyStrip p
              if t.isEmpty then none else some t) (q :: L'') :=
          List.filterMap_cons_some (by simp [he])
        rw [hfm] at hs
        cases hM : List.filterMap (fun p =>
            let t := pyStrip p
            if t.isEmpty then none else some t) (q :: L'') with
        | nil => rw [hM] at hs; simp at hs
        | cons m M' =>
          rw [hM, List.dropLast_cons_of_ne_nil (by simp)] at hs
          rcases List.mem_cons.mp hs with h | h
          · subst h
            exact (pyStrip_terminator hE).1
          · rw [← hM] at h
            exact ih hL' s h

/-- C3: `split_into_sentences` (src/ai.py lines 43-46) splits on the
terminators `.`, `?`, `!` followed by optional whitespace, keeping each
terminator with the preceding sentence (every non-final returned sentence
ends in a terminator character), returns only trimmed non-empty sentences
in document order, concatenating the results reproduces the input's
content and order modulo whitespace (the non-space characters of the
flattened output equal those of the input, in order), and the empty input
yields the empty sequence. -/
theorem c3_split_into_sentences (text : List Char) :
    split_into_sentences []= []
    ∧ (∀ s ∈ split_into_sentences text, s ≠ [] ∧ pyStrip s = s)
    ∧ ((split_into_sentences text).flatten).filter (fun c => !isPySpace c)
        = text.filter (fun c => !isPySpace c)
    ∧ (∀ s ∈ (split_into_sentences text).dropLast, endsInTerminator s) := by
  refine ⟨rfl, ?_, ?_, ?_⟩
  · intro s hs
    rw [split_into_sentences] at hs
    obtain ⟨p, hp, hmap⟩ := List.mem_filterMap.mp hs
    by_cases he : (pyStrip p).isEmpty = true
    · simp only [he, if_true] at hmap
      exact absurd hmap (by simp)
    · simp only [he, Bool.false_eq_true, if_false, Option.some.injEq] at hmap
      subst hmap
      constructor
      · intro hnil
        rw [hnil] at he
        exact he rfl
      · exact pyStripBy_idem isPySpace p
  · rw [split_into_sentences, stripF_flatten_filter, splitRaw]
    have h := splitGo_flatten_filter text []
    simpa using h
  · rw [split_into_sentences]
    refine filterMap_strip_dropLast (splitRaw text) ?_
    rw [splitRaw]
    exact splitGo_dropLast_terminator text []

/-- C3 (witness): the splitter's contract evaluated at `"Hi. Bye!"`,
with the membership hypotheses discharged by kernel evaluation. -/
theorem c3_split_into_sentences_witness :
    split_into_sentences (("Hi. Bye!").toList)
        = [("Hi.").toList, ("Bye!").toList]
    ∧ (("Hi.").toList ≠ [] ∧ pyStrip (("Hi.").toList) = ("Hi.").toList)
    ∧ endsInTerminator (("Hi.").toList) :=
  ⟨by decide,
   (c3_split_into_sentences (("Hi. Bye!").toList)).2.1 (("Hi.").toList)
     (by decide),
   (c3_split_into_sentences (("Hi. Bye!").toList)).2.2.2 (("Hi.").toList)
     (by decide)⟩

theorem send_next_error_stay (table : Table) (chat : Nat) (s : Session)
    (hget : tget table chat = some s)
    (h : s.current_idx < s.errors.length) :
    (send_next_error table chat).2 = table := by
  rw [send_next_error]
  split
  · next heq => rw [hget] at heq; simp at heq
  · next s' heq =>
    rw [hget] at heq
    injection heq with heq
    subst heq
    rw [dif_pos h]

theorem tget_tset_self (T : Table) (k : Nat) (s : Session) :
    tget (tset T k s) k = some s := by
  induction T with
  | nil => simp [tset, tget]
  | cons p t ih =>
    obtain ⟨k0, s0⟩ := p
    rw [tset]
    by_cases h : k0 = k
    · rw [if_pos h, tget, if_pos rfl]
    · rw [if_neg h, tget, if_neg h]
      exact ih

/-- C6 (counterexample): when every sentence of a submission comes back
unchanged but the table holds a stale session for the conversation from
an earlier submission, `process_user_text` leaves that entry in place —
the table is not "left without an entry for that conversation". Here the
transport fails, so every analysis echoes the sentence. -/
theorem c6_no_errors_counterexample :
    (∀ item ∈ check_text_with_explanations (fun _ => Except.error ())
        (wrap_terms noForms zeroRatio (("hi.").toList) []),
      item.1 = item.2.1)
    ∧ tget (process_user_text noForms zeroRatio (fun _ => Except.error ())
        [] [(0, ⟨("x").toList, [], 0, none⟩)] 0 (("hi.").toList)).2 0
      ≠ none := by
  decide

/-- C6 (amended): the triples whose original equals their corrected part
are excluded from the review queue (the queue is the filter of the
analysis results by originality of the correction); when every analysed
sentence comes back unchanged the handler answers with the analyzing and
no-errors messages and returns the table exactly as it was — so no
session is created, but a stale entry for the conversation survives;
when the queue is nonempty the entry for the conversation is the fresh
session holding the submitted text, the queue and cursor zero. -/
theorem c6_no_errors_amended (lexforms : List Char → List (List Char))
    (ratio : List Char → List Char → Nat)
    (resp : List Char → Except Unit (List Char))
    (terms : List (List Char)) (table : Table) (chat : Nat)
    (user_text : List Char) :
    ((∀ item ∈ check_text_with_explanations resp
          (wrap_terms lexforms ratio user_text terms), item.1 = item.2.1) →
        process_user_text lexforms ratio resp terms table chat user_text
          = ([Msg.analyzing, Msg.noErrors], table))
    ∧ (∀ item ∈ (check_text_with_explanations resp
          (wrap_terms lexforms ratio user_text terms)).filter
            (fun item => item.1 ≠ item.2.1), item.1 ≠ item.2.1)
    ∧ ((check_text_with_explanations resp
          (wrap_terms lexforms ratio user_text terms)).filter
            (fun item => item.1 ≠ item.2.1) ≠ [] →
        tget (process_user_text lexforms ratio resp terms table chat
            user_text).2 chat
          = some { original_text := user_text,
                   errors := (check_text_with_explanations resp
                     (wrap_terms lexforms ratio user_text terms)).filter
                       (fun item => item.1 ≠ item.2.1),
                   current_idx := 0, last_correction := none }) := by
  refine ⟨?_, ?_, ?_⟩
  · intro hall
    have hemp : (check_text_with_explanations resp
        (wrap_terms lexforms ratio user_text terms)).filter
          (fun item => item.1 ≠ item.2.1) = [] := by
      rw [List.filter_eq_nil_iff]
      intro a ha
      simp [hall a ha]
    have hempE : ((check_text_with_explanations resp
        (wrap_terms lexforms ratio user_text terms)).filter
          (fun item => item.1 ≠ item.2.1)).isEmpty = true := by
      rw [hemp]
      rfl
    simp only [process_user_text, hempE]
    rfl
  · intro item hitem
    exact of_decide_eq_true (List.mem_filter.mp hitem).2
  · intro hne
    have hne' : ((check_text_with_explanations resp
        (wrap_terms lexforms ratio user_text terms)).filter
          (fun item => item.1 ≠ item.2.1)).isEmpty = false := by
      cases hq : (check_text_with_explanations resp
          (wrap_terms lexforms ratio user_text terms)).filter
            (fun item => item.1 ≠ item.2.1) with
      | nil => exact absurd hq hne
      | cons a l => rfl
    have hlen : 0 < ((check_text_with_explanations resp
        (wrap_terms lexforms ratio user_text terms)).filter
          (fun item => item.1 ≠ item.2.1)).length := by
      cases hq : (check_text_with_explanations resp
          (wrap_terms lexforms ratio user_text terms)).filter
            (fun item => item.1 ≠ item.2.1) with
      | nil => exact absurd hq hne
      | cons a l => simp
    simp only [process_user_text, hne', Bool.false_eq_true, if_false]
    rw [send_next_error_stay (tset table chat _) chat _
      (tget_tset_self table chat _) (by simpa using hlen)]
    exact tget_tset_self table chat _

/-- C6 (witness): the amended law at a concrete submission whose one
sentence comes back corrected, so the queue is nonempty and the fresh
session is stored. -/
theorem c6_no_errors_witness :
    tget (process_user_text noForms zeroRatio
        (fun _ => Except.ok (("Исправленное предложение: bye.").toList))
        [] [] 0 (("hi.").toList)).2 0
      = some { original_text := ("hi.").toList,
               errors := (check_text_with_explanations
                 (fun _ => Except.ok (("Исправленное предложение: bye.").toList))
                 (wrap_terms noForms zeroRatio (("hi.").toList) [])).filter
                   (fun item => item.1 ≠ item.2.1),
               current_idx := 0, last_correction := none } :=
  (c6_no_errors_amended noForms zeroRatio
    (fun _ => Except.ok (("Исправленное предложение: bye.").toList))
    [] [] 0 (("hi.").toList)).2.2 (by decide)

/-- C7 (counterexample): `handle_correction` re-normalizes the stored
pair before substituting, so the accept choice does not replace the first
occurrence of the stored `pendingSuggestion.original`: with pending pair
`("a—b", "Z")` and text `"a—b c"`, the re-normalized needle `"a — b"`
does not occur, the text survives unchanged, and it differs from the
claimed first-occurrence replacement `"Z c"`. -/
theorem c7_commit_counterexample :
    tget (handle_correction
        [(0, { original_text := ("a—b c").toList,
               errors := [(("e").toList, ("f").toList, ("g").toList),
                          (("e").toList, ("f").toList, ("g").toList)],
               current_idx := 0,
               last_correction := some (("a—b").toList, ("Z").toList) })]
        0 Choice.accept).2 0
      = some { original_text := ("a—b c").toList,
               errors := [(("e").toList, ("f").toList, ("g").toList),
                          (("e").toList, ("f").toList, ("g").toList)],
               current_idx := 1, last_correction := none }
    ∧ ("a—b c").toList
      ≠ pyReplaceFirst (("a—b c").toList) (("a—b").toList) (("Z").toList) := by
  decide

/-- C7 (amended): with a pending pair `(o, c)` set and a queue item still
ahead after the advance, the accept choice replaces the first occurrence
of the re-normalized needle `fix_dash_spacing (unwrap_terms o)` in the
session text with `fix_dash_spacing (unwrap_terms c)`, advances the
cursor by one and clears the pending pair; the reject choice advances and
clears identically but leaves the text untouched. -/
theorem c7_commit_amended (table : Table) (chat : Nat) (s : Session)
    (o c : List Char) (hget : tget table chat = some s)
    (hlast : s.last_correction = some (o, c))
    (hidx : s.current_idx + 1 < s.errors.length) :
    (tget (handle_correction table chat Choice.accept).2 chat
      = some { original_text := pyReplaceFirst s.original_text
                 (fix_dash_spacing (unwrap_terms o))
                 (fix_dash_spacing (unwrap_terms c)),
               errors := s.errors, current_idx := s.current_idx + 1,
               last_correction := none })
    ∧ (tget (handle_correction table chat Choice.reject).2 chat
      = some { original_text := s.original_text,
               errors := s.errors, current_idx := s.current_idx + 1,
               last_correction := none }) := by
  have hAcc : handle_correction table chat Choice.accept
      = (Msg.cbOk :: (send_next_error (tset table chat
          (Session.mk (pyReplaceFirst s.original_text
              (fix_dash_spacing (unwrap_terms o))
              (fix_dash_spacing (unwrap_terms c)))
            s.errors (s.current_idx + 1) none)) chat).1,
         (send_next_error (tset table chat
          (Session.mk (pyReplaceFirst s.original_text
              (fix_dash_spacing (unwrap_terms o))
              (fix_dash_spacing (unwrap_terms c)))
            s.errors (s.current_idx + 1) none)) chat).2) := by
    rw [handle_correction]
    split
    · next heq => rw [hget] at heq; simp at heq
    · next s' heq =>
      rw [hget] at heq
      injection heq with heq
      subst heq
      split
      · next heq2 => rw [hlast] at heq2; simp at heq2
      · next p heq2 =>
        rw [hlast] at heq2
        injection heq2 with heq2
        subst heq2
        rfl
  have hRej : handle_correction table chat Choice.reject
      = (Msg.cbOk :: (send_next_error (tset table chat
          (Session.mk s.original_text
            s.errors (s.current_idx + 1) none)) chat).1,
         (send_next_error (tset table chat
          (Session.mk s.original_text
            s.errors (s.current_idx + 1) none)) chat).2) := by
    rw [handle_correction]
    split
    · next heq => rw [hget] at heq; simp at heq
    · next s' heq =>
      rw [hget] at heq
      injection heq with heq
      subst heq
      split
      · next heq2 => rw [hlast] at heq2; simp at heq2
      · next p heq2 =>
        rw [hlast] at heq2
        injection heq2 with heq2
        subst heq2
        rfl
  constructor
  · rw [hAcc, send_next_error_stay (tset table chat _) chat _
      (tget_tset_self table chat _) (by simpa using hidx)]
    exact tget_tset_self table chat _
  · rw [hRej, send_next_error_stay (tset table chat _) chat _
      (tget_tset_self table chat _) (by simpa using hidx)]
    exact tget_tset_self table chat _

/-- C7 (witness): the amended commit law at a concrete session whose
pending needle occurs literally in the text. -/
theorem c7_commit_witness :
    tget (handle_correction
        [(0, { original_text := ("x y.").toList,
               errors := [(("e").toList, ("f").toList, ("g").toList),
                          (("e").toList, ("f").toList, ("g").toList)],
               current_idx := 0,
               last_correction := some (("x").toList, ("z").toList) })]
        0 Choice.accept).2 0
      = some { original_text := pyReplaceFirst (("x y.").toList)
                 (fix_dash_spacing (unwrap_terms (("x").toList)))
                 (fix_dash_spacing (unwrap_terms (("z").toList))),
               errors := [(("e").toList, ("f").toList, ("g").toList),
                          (("e").toList, ("f").toList, ("g").toList)],
               current_idx := 1, last_correction := none } :=
  (c7_commit_amended
    [(0, { original_text := ("x y.").toList,
           errors := [(("e").toList, ("f").toList, ("g").toList),
                      (("e").toList, ("f").toList, ("g").toList)],
           current_idx := 0,
           last_correction := some (("x").toList, ("z").toList) })]
    0
    { original_text := ("x y.").toList,
      errors := [(("e").toList, ("f").toList, ("g").toList),
                 (("e").toList, ("f").toList, ("g").toList)],
      current_idx := 0,
      last_correction := some (("x").toList, ("z").toList) }
    (("x").toList) (("z").toList) (by decide) rfl (by decide)).1

/-- C8: a commit choice received with no pending correction answers with
the "no available correction" warning and changes nothing, and any
choice for a conversation id absent from the table is likewise a
reported no-op: `handle_correction` answers the same warning and
`handle_choice` the "session expired" warning, both returning the table
unchanged; the handlers are total functions, so nothing is raised on
these paths. -/
theorem c8_missing_session_noop (table : Table) (chat : Nat)
    (choice : Choice) (s : Session) :
    (tget table chat = some s → s.last_correction = none →
        handle_correction table chat choice = ([Msg.cbNoCorrection], table))
    ∧ (tget table chat = none →
        handle_correction table chat choice = ([Msg.cbNoCorrection], table)
        ∧ handle_choice table chat choice
            = some ([Msg.cbSessionExpired], table)) := by
  constructor
  · intro hget hlast
    rw [handle_correction]
    split
    · rfl
    · next s' heq =>
      rw [hget] at heq
      injection heq with heq
      subst heq
      split
      · rfl
      · next p heq2 => rw [hlast] at heq2; simp at heq2
  · intro hget
    constructor
    · rw [handle_correction]
      split
      · rfl
      · next s' heq => rw [hget] at heq; simp at heq
    · rw [handle_choice]
      split
      · rfl
      · next s' heq => rw [hget] at heq; simp at heq

/-- C8 (witness): the no-op law at a concrete table with a pending-free
session, and at the empty table. -/
theorem c8_missing_session_witness :
    handle_correction [(0, Session.mk (("x").toList) [] 0 none)] 0
        Choice.accept
      = ([Msg.cbNoCorrection], [(0, Session.mk (("x").toList) [] 0 none)])
    ∧ (handle_correction [] 1 Choice.accept = ([Msg.cbNoCorrection], [])
       ∧ handle_choice [] 1 Choice.accept
           = some ([Msg.cbSessionExpired], [])) :=
  ⟨(c8_missing_session_noop [(0, Session.mk (("x").toList) [] 0 none)] 0
      Choice.accept (Session.mk (("x").toList) [] 0 none)).1 (by decide) rfl,
   (c8_missing_session_noop [] 1 Choice.accept
      (Session.mk (("x").toList) [] 0 none)).2 rfl⟩

theorem splitCommaGo_no_comma : ∀ (cs acc : List Char), ',' ∉ acc →
    ∀ p ∈ splitCommaGo acc cs, ',' ∉ p
  | [], acc, hacc => by
    rw [splitCommaGo_nil]
    intro p hp
    rw [List.mem_singleton] at hp
    subst hp
    simpa using hacc
  | c :: cs, acc, hacc => by
    rw [splitCommaGo_cons]
    by_cases hc : c = ','
    · rw [if_pos hc]
      intro p hp
      rcases List.mem_cons.mp hp with h | h
      · subst h
        simpa using hacc
      · exact splitCommaGo_no_comma (cs.dropWhile isPySpace) [] (by simp) p h
    · rw [if_neg hc]
      refine splitCommaGo_no_comma cs (c :: acc) ?_
      intro hm
      rcases List.mem_cons.mp hm with h | h
      · exact hc h.symm
      · exact hacc h
termination_by cs acc _ => cs.length
decreasing_by
  all_goals simp only [List.length_cons]
  all_goals first
    | exact Nat.lt_succ_self _
    | exact Nat.lt_succ_of_le (List.dropWhile_sublist _).length_le

/-- C9 (counterexample): duplicates are not collapsed — the loader read
on the content `"a, a"` returns the term `a` twice, so the result is not
a set. -/
theorem c9_loader_counterexample :
    ¬ (load_dictionary_terms (some (("a, a").toList))).Nodup := by
  decide

/-- C9 (amended): the loader parses the resource as comma-separated
tokens with surrounding spaces and quotes stripped — every returned term
is nonempty, already stripped (stripping again changes nothing) and
comma-free — and absence or read failure of the resource yields the
empty term list; duplicate terms are kept, so the result is a list, not
a set. -/
theorem c9_loader_amended (content : List Char) :
    load_dictionary_terms none = []
    ∧ (∀ t ∈ load_dictionary_terms (some content),
        t ≠ [] ∧ pyStripBy isQuoteSpace t = t ∧ ',' ∉ t) := by
  refine ⟨rfl, ?_⟩
  intro t ht
  rw [load_dictionary_terms] at ht
  obtain ⟨hm, hne⟩ := List.mem_filter.mp ht
  obtain ⟨p, hp, hmap⟩ := List.mem_map.mp hm
  subst hmap
  refine ⟨?_, pyStripBy_idem isQuoteSpace p, ?_⟩
  · intro hnil
    rw [hnil] at hne
    simp at hne
  · intro hcm
    have hsub : pyStripBy isQuoteSpace p ⊆ p :=
      (pyStripBy_inf isQuoteSpace p).subset
    exact (splitCommaGo_no_comma content [] (by simp) p hp) (hsub hcm)

/-- C9 (witness): the amended loader contract at the content `"a, b"`,
whose first returned term satisfies all three token properties. -/
theorem c9_loader_witness :
    load_dictionary_terms (some (("a, b").toList))
        = [("a").toList, ("b").toList]
    ∧ (("a").toList ≠ []
       ∧ pyStripBy isQuoteSpace (("a").toList) = ("a").toList
       ∧ ',' ∉ ("a").toList) :=
  ⟨by decide, (c9_loader_amended (("a, b").toList)).2 (("a").toList)
    (by decide)⟩

/-- C10 (counterexample): the dash normalization applied to the final
document is leftmost non-overlapping, not exhaustive: on `"a—b—c"` the
first rewrite consumes the `b`, the second dash then has no preceding
word character left to match, and the emitted final text is
`"a — b—c"`, not the fully spaced `"a — b — c"` the claim's "every
occurrence" predicts. -/
theorem c10_final_counterexample :
    send_next_error
        [(0, Session.mk (("a—b—c").toList)
           [(("e").toList, ("f").toList, ("g").toList)] 1 none)] 0
      = ([Msg.finalText (("a — b—c").toList)], [])
    ∧ ("a — b—c").toList ≠ ("a — b — c").toList := by
  decide

/-- C10 (amended): when the cursor has reached the queue length, the
final document sent is the session text with term-unwrapping and then
dash normalization applied — `fix_dash_spacing (unwrap_terms
originalText)` — and the session entry is removed from the table; the
normalization rewrites leftmost non-overlapping `word—word` occurrences
rather than every occurrence. -/
theorem c10_final_amended (table : Table) (chat : Nat) (s : Session)
    (hget : tget table chat = some s)
    (hidx : s.errors.length ≤ s.current_idx) :
    send_next_error table chat
      = ([Msg.finalText (fix_dash_spacing (unwrap_terms s.original_text))],
         tdel table chat) := by
  rw [send_next_error]
  split
  · next heq => rw [hget] at heq; simp at heq
  · next s' heq =>
    rw [hget] at heq
    injection heq with heq
    subst heq
    rw [dif_neg (by omega)]
    rw [finish_correction, hget]

/-- C10 (witness): the amended final-emission law at a concrete
exhausted session. -/
theorem c10_final_witness :
    send_next_error [(0, Session.mk (("a.").toList) [] 0 none)] 0
      = ([Msg.finalText (fix_dash_spacing (unwrap_terms (("a.").toList)))],
         tdel [(0, Session.mk (("a.").toList) [] 0 none)] 0) :=
  c10_final_amended [(0, Session.mk (("a.").toList) [] 0 none)] 0
    (Session.mk (("a.").toList) [] 0 none) (by decide) (by decide)
